import Mathlib

/-!
# Verification of the maze-solver search engine

Shallow embedding of the repository's two source files:

* `eight_puzzle.py` : `get_neighbors`, `calculate_cost`, `heuristic`,
  `get_start_state`, `get_goal_state`.
* `dfs_nopath.py`  : `dfs`, `bfs`, `a_star`.

A maze is a (rectangular) list of rows of characters ('w' = wall); a cell
is a pair of integer coordinates (row, column), matching the Python tuples.
Python's bounded loops are embedded as fuel-indexed recursions; a returned
`none` means the fuel was exhausted, and the fuel bounds chosen below are
proved sufficient, so reachable states never return `none`.
Costs are embedded as rationals (Python produces ints, or ints plus the
0.5 diagonal surcharge of `calculate_cost`).
-/

namespace MazeSolver

/-- A cell of the maze: a (row, column) pair of integers, as in the Python
tuples handed around by the searches. -/
abbrev Cell : Type := ℤ × ℤ

/-- A maze: a 2D list of characters, as produced by the maze generator. -/
abbrev Maze : Type := List (List Char)

/-- `maze[r][c]` for in-bounds nonnegative indices.  Out-of-range lookups
return 'w'; all uses below are guarded by bounds checks exactly where the
Python code is (`get_neighbors`), or restricted to in-bounds cells. -/
def labelAt (m : Maze) (c : Cell) : Char :=
  (m.getD c.1.toNat []).getD c.2.toNat 'w'

/-- The bounds test `0 <= nx < len(maze) and 0 <= ny < len(maze[0])` from
the comprehension in `get_neighbors`. -/
def inBounds (m : Maze) (c : Cell) : Prop :=
  0 ≤ c.1 ∧ c.1 < (m.length : ℤ) ∧ 0 ≤ c.2 ∧ c.2 < ((m.headD []).length : ℤ)

instance (m : Maze) (c : Cell) : Decidable (inBounds m c) :=
  inferInstanceAs (Decidable (0 ≤ c.1 ∧ c.1 < (m.length : ℤ) ∧ 0 ≤ c.2 ∧
    c.2 < ((m.headD []).length : ℤ)))

/-- `get_neighbors(maze, state)` from `eight_puzzle.py` (lines 51-70):
the four orthogonal cells, filtered to in-bounds non-wall cells, in the
order up, down, left, right. -/
def get_neighbors (m : Maze) (s : Cell) : List Cell :=
  [(s.1 - 1, s.2), (s.1 + 1, s.2), (s.1, s.2 - 1), (s.1, s.2 + 1)].filter
    (fun c => decide (inBounds m c ∧ labelAt m c ≠ 'w'))

/-- `cost_map.get(label, 1)` with `cost_map = {'1':1,'2':2,'3':3,'4':4,' ':1}`
from `calculate_cost`. -/
def costMapGet (c : Char) : ℚ :=
  if c = '1' then 1
  else if c = '2' then 2
  else if c = '3' then 3
  else if c = '4' then 4
  else if c = ' ' then 1
  else 1

/-- `calculate_cost(maze, state, neighbor)` from `eight_puzzle.py`
(lines 72-98): base cost from the label of `neighbor`, plus 0.5 when both
coordinates differ. -/
def calculate_cost (m : Maze) (state neighbor : Cell) : ℚ :=
  let base := costMapGet (labelAt m neighbor)
  if state.1 ≠ neighbor.1 ∧ state.2 ≠ neighbor.2 then base + 1/2 else base

/-- `heuristic(goal, neighbor)` from `eight_puzzle.py` (lines 100-118):
the Manhattan distance. -/
def heuristic (goal neighbor : Cell) : ℚ :=
  ((|goal.1 - neighbor.1| + |goal.2 - neighbor.2| : ℤ) : ℚ)

/-- `get_start_state(maze)` from `eight_puzzle.py` (lines 145-157): the
first 'c' in the first row, or `None`. -/
def get_start_state (m : Maze) : Option Cell :=
  match (List.range (m.headD []).length).find?
      (fun j => (m.headD []).getD j 'w' = 'c') with
  | some j => some (0, (j : ℤ))
  | none => none

/-- `get_goal_state(maze)` from `eight_puzzle.py` (lines 159-171): the
last 'c' in the last row, or `None`. -/
def get_goal_state (m : Maze) : Option Cell :=
  let last := m.getD (m.length - 1) []
  match (List.range last.length).reverse.find? (fun j => last.getD j 'w' = 'c') with
  | some j => some ((m.length : ℤ) - 1, (j : ℤ))
  | none => none

/-- The grid invariant from the spec's data model: all rows have the
length of the first row (the Python code indexes every row by
`len(maze[0])` columns). -/
def Rectangular (m : Maze) : Prop :=
  ∀ row ∈ m, row.length = (m.headD []).length

instance (m : Maze) : Decidable (Rectangular m) :=
  inferInstanceAs (Decidable (∀ row ∈ m, row.length = (m.headD []).length))

/-- A valid path of the search engine: nonempty, starts at `s`, ends at
`g`, and every consecutive pair is a `get_neighbors` transition. -/
def ValidPath (m : Maze) (s g : Cell) (p : List Cell) : Prop :=
  p.head? = some s ∧ p.getLast? = some g ∧
    List.Chain' (fun a b => b ∈ get_neighbors m a) p

instance decChainNbr (m : Maze) :
    (p : List Cell) → Decidable (List.Chain' (fun a b => b ∈ get_neighbors m a) p)
  | [] => isTrue List.chain'_nil
  | [x] => isTrue (List.chain'_singleton x)
  | a :: b :: rest =>
    haveI := decChainNbr m (b :: rest)
    decidable_of_iff (b ∈ get_neighbors m a ∧
      List.Chain' (fun a b => b ∈ get_neighbors m a) (b :: rest))
      (Iff.symm (List.chain'_cons (R := fun a b => b ∈ get_neighbors m a)
        (x := a) (y := b) (l := rest)))

instance (m : Maze) (s g : Cell) (p : List Cell) : Decidable (ValidPath m s g p) :=
  inferInstanceAs (Decidable (p.head? = some s ∧ p.getLast? = some g ∧
    List.Chain' (fun a b => b ∈ get_neighbors m a) p))

/-- `g` is reachable from `s` through `get_neighbors` transitions. -/
def Reachable (m : Maze) (s g : Cell) : Prop :=
  ∃ p, ValidPath m s g p

/-- The summed edge cost of a path: the sum of `calculate_cost` over its
consecutive pairs. -/
def pathCost (m : Maze) : List Cell → ℚ
  | [] => 0
  | [_] => 0
  | a :: b :: rest => calculate_cost m a b + pathCost m (b :: rest)

/-- Result of one search: `found p c` models the Python return `(p, c)`
with a non-`None` path, `nopath` models the return `(None, 0)`. -/
inductive Res (α : Type) : Type where
  | found : List Cell → α → Res α
  | nopath : Res α
deriving DecidableEq

/-- `maze.length * row length + 1`: an upper bound for the number of
distinct cells a search can ever record (every recorded cell is in
bounds, except possibly the start cell, hence the `+ 1`). -/
def numU (m : Maze) : ℕ := m.length * (m.headD []).length + 1

/-- The loop of `dfs` (`dfs_nopath.py` lines 17-36), indexed by fuel.
The stack's top is the head of the list; pushing the neighbor list in
Python `append` order and popping from the end is embedded by prepending
the reversed entry list.  `none` = fuel exhausted (never happens for the
fuel used by `dfs`). -/
def dfsAux (m : Maze) (goal : Cell) :
    ℕ → List (Cell × List Cell) → List Cell → Option (Res ℕ)
  | 0, _, _ => none
  | _ + 1, [], _ => some Res.nopath
  | fuel + 1, (v, p) :: rest, visited =>
    if v ∈ visited then dfsAux m goal fuel rest visited
    else if v = goal then some (Res.found p p.length)
    else dfsAux m goal fuel
      (((get_neighbors m v).map (fun n => (n, p ++ [n]))).reverse ++ rest)
      (v :: visited)

/-- A sufficient fuel bound for `dfsAux`: each iteration either pops a
visited entry (stack shrinks) or visits a new cell (at most `numU m` of
them, each pushing at most 4 entries). -/
def dfsFuel (m : Maze) : ℕ := 5 * numU m + 2

/-- `dfs(maze, start, goal)` from `dfs_nopath.py` (lines 6-36). -/
def dfs (m : Maze) (start goal : Cell) : Option (Res ℕ) :=
  dfsAux m goal (dfsFuel m) [(start, [start])] []

/-- The loop of `bfs` (`dfs_nopath.py` lines 50-70), indexed by fuel.
The queue's front is the head of the list (`queue.pop(0)`), pushes append
at the end in `get_neighbors` order. -/
def bfsAux (m : Maze) (goal : Cell) :
    ℕ → List (Cell × List Cell) → List Cell → Option (Res ℕ)
  | 0, _, _ => none
  | _ + 1, [], _ => some Res.nopath
  | fuel + 1, (v, p) :: rest, visited =>
    if v ∈ visited then bfsAux m goal fuel rest visited
    else if v = goal then some (Res.found p p.length)
    else bfsAux m goal fuel
      (rest ++ (get_neighbors m v).map (fun n => (n, p ++ [n])))
      (v :: visited)

/-- `bfs(maze, start, goal)` from `dfs_nopath.py` (lines 38-70). -/
def bfs (m : Maze) (start goal : Cell) : Option (Res ℕ) :=
  bfsAux m goal (dfsFuel m) [(start, [start])] []

/-- An entry of the priority queue of `a_star`: the tuple
`(priority, state, path)` that is `put` on the Python `PriorityQueue`. -/
structure AEntry : Type where
  pri : ℚ
  cell : Cell
  path : List Cell
deriving DecidableEq

/-- Strict lexicographic order on cells (Python tuple comparison). -/
def cellLtB (a b : Cell) : Bool :=
  decide (a.1 < b.1) || (a.1 == b.1 && decide (a.2 < b.2))

/-- Non-strict lexicographic order on lists of cells (Python list
comparison). -/
def listCellLeB : List Cell → List Cell → Bool
  | [], _ => true
  | _ :: _, [] => false
  | a :: as, b :: bs => if a = b then listCellLeB as bs else cellLtB a b

/-- The total order by which Python's `PriorityQueue` (a heap of tuples)
compares entries: priority first, then cell, then path. -/
def entryLe (e f : AEntry) : Bool :=
  decide (e.pri < f.pri) ||
    (e.pri == f.pri &&
      (cellLtB e.cell f.cell || (e.cell == f.cell && listCellLeB e.path f.path)))

/-- Extract a minimal entry (under `entryLe`) from the queue, returning
it together with the remaining entries.  This models `queue.get()` on a
heap ordered by tuple comparison. -/
def popMin : List AEntry → Option (AEntry × List AEntry)
  | [] => none
  | e :: es =>
    match popMin es with
    | none => some (e, [])
    | some (f, rest) => if entryLe e f then some (e, es) else some (f, e :: rest)

/-- Lookup in the `cost_so_far` dictionary, embedded as an association
list with distinct keys. -/
def lookupCsf : List (Cell × ℚ) → Cell → Option ℚ
  | [], _ => none
  | (k, v) :: rest, c => if k = c then some v else lookupCsf rest c

/-- `cost_so_far[c] = v`: replace the binding of `c` if present,
otherwise append a new binding. -/
def setCsf : List (Cell × ℚ) → Cell → ℚ → List (Cell × ℚ)
  | [], c, v => [(c, v)]
  | (k, w) :: rest, c, v =>
    if k = c then (c, v) :: rest else (k, w) :: setCsf rest c v

/-- The body of the `for neighbor in get_neighbors(...)` loop of `a_star`
(`dfs_nopath.py` lines 98-108), acting on the pair (queue, cost_so_far).
`cost_so_far[state]` is read afresh from the current dictionary, as in
the Python code; a missing key (which never occurs in reachable states,
where every queued cell has a `cost_so_far` entry) defaults to 0. -/
def relax (m : Maze) (goal state : Cell) (path : List Cell)
    (acc : List AEntry × List (Cell × ℚ)) (nb : Cell) :
    List AEntry × List (Cell × ℚ) :=
  match lookupCsf acc.2 nb with
  | some old =>
    if (lookupCsf acc.2 state).getD 0 + calculate_cost m state nb < old then
      (acc.1 ++ [⟨(lookupCsf acc.2 state).getD 0 + calculate_cost m state nb +
          heuristic goal nb, nb, path ++ [nb]⟩],
        setCsf acc.2 nb ((lookupCsf acc.2 state).getD 0 + calculate_cost m state nb))
    else acc
  | none =>
    (acc.1 ++ [⟨(lookupCsf acc.2 state).getD 0 + calculate_cost m state nb +
        heuristic goal nb, nb, path ++ [nb]⟩],
      setCsf acc.2 nb ((lookupCsf acc.2 state).getD 0 + calculate_cost m state nb))

/-- The loop of `a_star` (`dfs_nopath.py` lines 91-109), indexed by fuel:
extract the minimum entry, return `(path, cost_so_far[state])` at the
goal, otherwise relax all neighbors and continue. -/
def aStarAux (m : Maze) (goal : Cell) :
    ℕ → List AEntry → List (Cell × ℚ) → Option (Res ℚ)
  | 0, _, _ => none
  | fuel + 1, queue, csf =>
    match popMin queue with
    | none => some Res.nopath
    | some (e, rest) =>
      if e.cell = goal then some (Res.found e.path ((lookupCsf csf e.cell).getD 0))
      else
        let st := (get_neighbors m e.cell).foldl (relax m goal e.cell e.path) (rest, csf)
        aStarAux m goal fuel st.1 st.2

/-- A sufficient fuel bound for `aStarAux`: every push strictly improves
a `cost_so_far` value, the values are naturals bounded by `4 * numU m`,
and there are at most `numU m` keys. -/
def aStarFuel (m : Maze) : ℕ := 2 * numU m * (4 * numU m + 1) + 2

/-- `a_star(maze, start, goal)` from `dfs_nopath.py` (lines 72-109). -/
def a_star (m : Maze) (start goal : Cell) : Option (Res ℚ) :=
  aStarAux m goal (aStarFuel m) [⟨0, start, [start]⟩] [(start, 0)]

/-- The spec's neighbor condition, written from the spec's words: the
cell satisfies `in_bounds` and its label is not `Wall`. -/
def specNeighborOk (m : Maze) (c : Cell) : Prop :=
  inBounds m c ∧ labelAt m c ≠ 'w'

instance (m : Maze) (c : Cell) : Decidable (specNeighborOk m c) :=
  inferInstanceAs (Decidable (inBounds m c ∧ labelAt m c ≠ 'w'))

/-- Sum of the (natural parts of the) values of a `cost_so_far`
dictionary. -/
def csfS (csf : List (Cell × ℚ)) : ℕ :=
  csf.foldr (fun p acc => p.2.num.toNat + acc) 0

/-- The potential of the `cost_so_far` dictionary used to bound the
number of `a_star` iterations: the sum of the (natural) recorded values,
plus a budget of `4 * numU m + 1` for every key not yet present. -/
def phiCsf (m : Maze) (csf : List (Cell × ℚ)) : ℕ :=
  csfS csf + (numU m - csf.length) * (4 * numU m + 1)

/-- Outcome of running `dfs` with Python `None` allowed as a coordinate
(the case where `get_start_state`/`get_goal_state` found no 'c').
`typeError` models the `TypeError` that `x, y = state` raises when
`state` is `None`. -/
inductive DfsPyOut : Type where
  | found : List (Option Cell) → ℕ → DfsPyOut
  | nopath : DfsPyOut
  | typeError : DfsPyOut
deriving DecidableEq

/-- The `dfs` loop over `Option Cell` vertices: Python compares `None`
to the goal with `==` (so `None == None` is `True` and the search returns
a path containing `None`), and only crashes with a `TypeError` once
`get_neighbors` tries to unpack a `None` vertex. -/
def dfsPyAux (m : Maze) (goal : Option Cell) :
    ℕ → List (Option Cell × List (Option Cell)) → List (Option Cell) →
      Option DfsPyOut
  | 0, _, _ => none
  | _ + 1, [], _ => some DfsPyOut.nopath
  | fuel + 1, (v, p) :: rest, visited =>
    if v ∈ visited then dfsPyAux m goal fuel rest visited
    else if v = goal then some (DfsPyOut.found p p.length)
    else
      match v with
      | none => some DfsPyOut.typeError
      | some c =>
        dfsPyAux m goal fuel
          (((get_neighbors m c).map
              (fun n => (some n, p ++ [some n]))).reverse ++ rest)
          (v :: visited)

/-- `dfs(maze, start, goal)` where `start` and `goal` are the possibly-
`None` results of `get_start_state` / `get_goal_state`. -/
def dfsPy (m : Maze) (start goal : Option Cell) : Option DfsPyOut :=
  dfsPyAux m goal (dfsFuel m) [(start, [start])] []

/-! ## Basic lemmas about the oracle -/

theorem mem_get_neighbors {m : Maze} {s c : Cell} :
    c ∈ get_neighbors m s ↔
      c ∈ ([(s.1 - 1, s.2), (s.1 + 1, s.2), (s.1, s.2 - 1), (s.1, s.2 + 1)] : List Cell) ∧
        inBounds m c ∧ labelAt m c ≠ 'w' := by
  simp [get_neighbors, List.mem_filter]

theorem nbr_inBounds {m : Maze} {s c : Cell} (h : c ∈ get_neighbors m s) :
    inBounds m c :=
  (mem_get_neighbors.mp h).2.1

theorem nbr_shares_coord {m : Maze} {s c : Cell} (h : c ∈ get_neighbors m s) :
    c.1 = s.1 ∨ c.2 = s.2 := by
  have h4 := (mem_get_neighbors.mp h).1
  simp only [List.mem_cons, List.not_mem_nil, or_false] at h4
  rcases h4 with h1 | h1 | h1 | h1 <;> subst h1 <;> simp

theorem nbr_ne_self {m : Maze} {s c : Cell} (h : c ∈ get_neighbors m s) :
    c ≠ s := by
  have h4 := (mem_get_neighbors.mp h).1
  simp only [List.mem_cons, List.not_mem_nil, or_false] at h4
  rcases h4 with h1 | h1 | h1 | h1 <;> subst h1 <;>
    intro he <;> rw [Prod.ext_iff] at he <;> simp at he <;> omega

theorem costMapGet_ge_one (c : Char) : 1 ≤ costMapGet c := by
  unfold costMapGet; split_ifs <;> norm_num

theorem cost_ge_one (m : Maze) (s nb : Cell) : 1 ≤ calculate_cost m s nb := by
  unfold calculate_cost
  have := costMapGet_ge_one (labelAt m nb)
  split_ifs <;> simp <;> linarith

theorem cost_nonneg (m : Maze) (s nb : Cell) : 0 ≤ calculate_cost m s nb :=
  le_trans (by norm_num) (cost_ge_one m s nb)

theorem cost_nbr_nat {m : Maze} {s nb : Cell} (h : nb ∈ get_neighbors m s) :
    ∃ k : ℕ, 1 ≤ k ∧ k ≤ 4 ∧ calculate_cost m s nb = (k : ℚ) := by
  have hshare := nbr_shares_coord h
  unfold calculate_cost
  rw [if_neg (by rintro ⟨h1, h2⟩; rcases hshare with h3 | h3 <;> simp_all)]
  unfold costMapGet
  split_ifs
  · exact ⟨1, by norm_num⟩
  · exact ⟨2, by norm_num⟩
  · exact ⟨3, by norm_num⟩
  · exact ⟨4, by norm_num⟩
  · exact ⟨1, by norm_num⟩
  · exact ⟨1, by norm_num⟩

theorem pathCost_nonneg (m : Maze) : ∀ p : List Cell, 0 ≤ pathCost m p
  | [] => le_refl 0
  | [_] => le_refl 0
  | a :: b :: rest => by
    have h1 := cost_nonneg m a b
    have h2 := pathCost_nonneg m (b :: rest)
    unfold pathCost
    linarith

theorem heuristic_self (g : Cell) : heuristic g g = 0 := by
  simp [heuristic]

theorem heuristic_nonneg (g c : Cell) : 0 ≤ heuristic g c := by
  unfold heuristic
  have h1 := abs_nonneg (g.1 - c.1)
  have h2 := abs_nonneg (g.2 - c.2)
  exact_mod_cast add_nonneg h1 h2

theorem int_abs_shift (a x d : ℤ) (hd : d = 1 ∨ d = -1) :
    |a - x| ≤ |a - (x + d)| + 1 := by
  have h := abs_sub_abs_le_abs_sub (a - x) (a - (x + d))
  have h2 : (a - x) - (a - (x + d)) = d := by ring
  rw [h2] at h
  rcases hd with h1 | h1 <;> subst h1 <;> simp at h <;> linarith

theorem heuristic_step {m : Maze} {c nb : Cell} (g : Cell)
    (h : nb ∈ get_neighbors m c) : heuristic g c ≤ heuristic g nb + 1 := by
  have hmem := (mem_get_neighbors.mp h).1
  simp only [List.mem_cons, List.not_mem_nil, or_false] at hmem
  unfold heuristic
  have key : |g.1 - c.1| + |g.2 - c.2| ≤ |g.1 - nb.1| + |g.2 - nb.2| + 1 := by
    rcases hmem with h1 | h1 | h1 | h1 <;> subst h1
    · show |g.1 - c.1| + |g.2 - c.2| ≤ |g.1 - (c.1 - 1)| + |g.2 - c.2| + 1
      have h3 := int_abs_shift g.1 c.1 (-1) (Or.inr rfl)
      have h4 : c.1 + (-1) = c.1 - 1 := by ring
      rw [h4] at h3
      linarith
    · show |g.1 - c.1| + |g.2 - c.2| ≤ |g.1 - (c.1 + 1)| + |g.2 - c.2| + 1
      have h3 := int_abs_shift g.1 c.1 1 (Or.inl rfl)
      linarith
    · show |g.1 - c.1| + |g.2 - c.2| ≤ |g.1 - c.1| + |g.2 - (c.2 - 1)| + 1
      have h3 := int_abs_shift g.2 c.2 (-1) (Or.inr rfl)
      have h4 : c.2 + (-1) = c.2 - 1 := by ring
      rw [h4] at h3
      linarith
    · show |g.1 - c.1| + |g.2 - c.2| ≤ |g.1 - c.1| + |g.2 - (c.2 + 1)| + 1
      have h3 := int_abs_shift g.2 c.2 1 (Or.inl rfl)
      linarith
  calc ((|g.1 - c.1| + |g.2 - c.2| : ℤ) : ℚ)
      ≤ ((|g.1 - nb.1| + |g.2 - nb.2| + 1 : ℤ) : ℚ) := by exact_mod_cast key
    _ = ((|g.1 - nb.1| + |g.2 - nb.2| : ℤ) : ℚ) + 1 := by push_cast; ring

/-- Manhattan distance is admissible along any valid chain ending at the
goal: it never exceeds the summed edge cost of the remaining path. -/
theorem heuristic_le_pathCost (m : Maze) (g : Cell) :
    ∀ (rest : List Cell) (c : Cell),
      List.Chain' (fun a b => b ∈ get_neighbors m a) (c :: rest) →
      (c :: rest).getLast? = some g →
      heuristic g c ≤ pathCost m (c :: rest)
  | [], c, _, hlast => by
    simp at hlast
    subst hlast
    rw [heuristic_self]
    exact le_refl 0
  | b :: rest, c, hchain, hlast => by
    rw [List.chain'_cons] at hchain
    have ih := heuristic_le_pathCost m g rest b hchain.2
      (by rwa [List.getLast?_cons_cons] at hlast)
    have hstep := heuristic_step g hchain.1
    have hcost := cost_ge_one m c b
    show heuristic g c ≤ calculate_cost m c b + pathCost m (b :: rest)
    linarith

/-! ## Unfolding lemmas for the fuel-indexed loops -/

theorem dfsAux_zero (m : Maze) (g : Cell) (st : List (Cell × List Cell))
    (vis : List Cell) : dfsAux m g 0 st vis = none := rfl

theorem dfsAux_nil (m : Maze) (g : Cell) (f : ℕ) (vis : List Cell) :
    dfsAux m g (f + 1) [] vis = some Res.nopath := rfl

theorem dfsAux_cons (m : Maze) (g : Cell) (f : ℕ) (v : Cell) (p : List Cell)
    (rest : List (Cell × List Cell)) (vis : List Cell) :
    dfsAux m g (f + 1) ((v, p) :: rest) vis =
      if v ∈ vis then dfsAux m g f rest vis
      else if v = g then some (Res.found p p.length)
      else dfsAux m g f
        (((get_neighbors m v).map (fun n => (n, p ++ [n]))).reverse ++ rest)
        (v :: vis) := rfl

theorem bfsAux_zero (m : Maze) (g : Cell) (st : List (Cell × List Cell))
    (vis : List Cell) : bfsAux m g 0 st vis = none := rfl

theorem bfsAux_nil (m : Maze) (g : Cell) (f : ℕ) (vis : List Cell) :
    bfsAux m g (f + 1) [] vis = some Res.nopath := rfl

theorem bfsAux_cons (m : Maze) (g : Cell) (f : ℕ) (v : Cell) (p : List Cell)
    (rest : List (Cell × List Cell)) (vis : List Cell) :
    bfsAux m g (f + 1) ((v, p) :: rest) vis =
      if v ∈ vis then bfsAux m g f rest vis
      else if v = g then some (Res.found p p.length)
      else bfsAux m g f
        (rest ++ (get_neighbors m v).map (fun n => (n, p ++ [n])))
        (v :: vis) := rfl

theorem aStarAux_zero (m : Maze) (g : Cell) (q : List AEntry)
    (csf : List (Cell × ℚ)) : aStarAux m g 0 q csf = none := rfl

theorem aStarAux_succ (m : Maze) (g : Cell) (f : ℕ) (q : List AEntry)
    (csf : List (Cell × ℚ)) :
    aStarAux m g (f + 1) q csf =
      match popMin q with
      | none => some Res.nopath
      | some (e, rest) =>
        if e.cell = g then some (Res.found e.path ((lookupCsf csf e.cell).getD 0))
        else
          let st := (get_neighbors m e.cell).foldl (relax m g e.cell e.path) (rest, csf)
          aStarAux m g f st.1 st.2 := rfl

/-! ## Helper lemmas for the search loops -/

theorem head?_append_left {α : Type} (p l : List α) (h : p ≠ []) :
    (p ++ l).head? = p.head? := by
  cases p with
  | nil => exact absurd rfl h
  | cons x xs => rfl

theorem chain_concat_mem {α : Type} (R : α → α → Prop) (q : List α) (v : α)
    (h : List.Chain' R (q ++ [v])) (hq : q ≠ []) : ∃ u ∈ q, R u v := by
  rcases List.chain'_append.mp h with ⟨_, _, h3⟩
  refine ⟨q.getLast hq, List.getLast_mem hq, ?_⟩
  exact h3 (q.getLast hq)
    (by rw [List.getLast?_eq_getLast q hq]; exact Option.mem_def.mpr rfl)
    v (Option.mem_def.mpr rfl)

theorem chain_concat_of {α : Type} (R : α → α → Prop) (p : List α) (v w : α)
    (hch : List.Chain' R p) (hlast : p.getLast? = some v) (hr : R v w) :
    List.Chain' R (p ++ [w]) := by
  refine List.chain'_append.mpr ⟨hch, List.chain'_singleton w, ?_⟩
  intro x hx y hy
  rw [hlast] at hx
  cases hx
  cases hy
  exact hr

theorem nbrs_len_le (m : Maze) (v : Cell) : (get_neighbors m v).length ≤ 4 := by
  have h := List.length_filter_le
    (fun c => decide (inBounds m c ∧ labelAt m c ≠ 'w'))
    ([(v.1 - 1, v.2), (v.1 + 1, v.2), (v.1, v.2 - 1), (v.1, v.2 + 1)] : List Cell)
  simpa [get_neighbors] using h

/-- Any duplicate-free list of cells that are in bounds (except possibly
the single cell `start`) has at most `numU m` elements. -/
theorem card_bound (m : Maze) (start : Cell) (l : List Cell) (hnd : l.Nodup)
    (hU : ∀ x ∈ l, x = start ∨ inBounds m x) : l.length ≤ numU m := by
  classical
  set F : Finset Cell := insert start
    (((Finset.range m.length) ×ˢ (Finset.range (m.headD []).length)).image
      (fun p => ((p.1 : ℤ), (p.2 : ℤ)))) with hF
  have hsub : l.toFinset ⊆ F := by
    intro x hx
    rw [List.mem_toFinset] at hx
    rcases hU x hx with h | h
    · subst h; exact Finset.mem_insert_self _ _
    · rcases h with ⟨ha, hb, hc, hd⟩
      refine Finset.mem_insert_of_mem (Finset.mem_image.mpr
        ⟨(x.1.toNat, x.2.toNat), ?_, ?_⟩)
      · rw [Finset.mem_product]
        constructor <;> rw [Finset.mem_range] <;> omega
      · have e1 : ((x.1.toNat : ℤ)) = x.1 := Int.toNat_of_nonneg ha
        have e2 : ((x.2.toNat : ℤ)) = x.2 := Int.toNat_of_nonneg hc
        exact Prod.ext e1 e2
  have h1 : l.length = l.toFinset.card := (List.toFinset_card_of_nodup hnd).symm
  have h2 : l.toFinset.card ≤ F.card := Finset.card_le_card hsub
  have h3 : F.card ≤ m.length * (m.headD []).length + 1 := by
    refine le_trans (Finset.card_insert_le _ _) ?_
    have h4 := Finset.card_image_le (s := (Finset.range m.length) ×ˢ
      (Finset.range (m.headD []).length)) (f := fun p => ((p.1 : ℤ), (p.2 : ℤ)))
    rw [Finset.card_product, Finset.card_range, Finset.card_range] at h4
    omega
  unfold numU
  omega

/-- If the visited set contains `start`, is closed under `get_neighbors`,
and misses `goal`, then `goal` is not reachable from `start`. -/
theorem not_reachable_of_closed (m : Maze) (start goal : Cell)
    (visited : List Cell) (hs : start ∈ visited) (hg : goal ∉ visited)
    (hc : ∀ v ∈ visited, ∀ w ∈ get_neighbors m v, w ∈ visited) :
    ¬ Reachable m start goal := by
  rintro ⟨p, hh, hl, hch⟩
  have walk : ∀ (p : List Cell) (a : Cell), p.head? = some a → a ∈ visited →
      List.Chain' (fun a b => b ∈ get_neighbors m a) p →
      ∀ g, p.getLast? = some g → g ∈ visited := by
    intro p
    induction p with
    | nil => intro a h; simp at h
    | cons x rest ih =>
      intro a h ha hch g hg2
      have hxa : x = a := by simpa using h
      subst hxa
      cases rest with
      | nil =>
        simp at hg2
        subst hg2
        exact ha
      | cons y rest2 =>
        rw [List.chain'_cons] at hch
        have hy : y ∈ visited := hc x ha y hch.1
        exact ih y rfl hy hch.2 g (by rwa [List.getLast?_cons_cons] at hg2)
  exact hg (walk p start hh hs hch goal hl)

/-! ## The DFS master lemma -/

/-- Main loop invariant argument for `dfs`: from any loop state
satisfying the invariants, with enough fuel, the loop returns; a found
result is a valid duplicate-free path from start to goal whose cost is
its length, and a no-path result certifies unreachability. -/
theorem dfs_master (m : Maze) (start goal : Cell) :
    ∀ (fuel : ℕ) (stack : List (Cell × List Cell)) (visited : List Cell),
      (∀ v p, (v, p) ∈ stack → ∃ q, p = q ++ [v] ∧ q.Nodup ∧
        (∀ x ∈ q, x ∈ visited) ∧ p.head? = some start ∧
        List.Chain' (fun a b => b ∈ get_neighbors m a) p) →
      goal ∉ visited →
      (start ∈ visited ∨ ∃ p, (start, p) ∈ stack) →
      (∀ v ∈ visited, ∀ w ∈ get_neighbors m v,
        w ∈ visited ∨ ∃ p, (w, p) ∈ stack) →
      visited.Nodup →
      (∀ v ∈ visited, v = start ∨ inBounds m v) →
      stack.length + 5 * (numU m - visited.length) + 1 ≤ fuel →
      ∃ r, dfsAux m goal fuel stack visited = some r ∧
        (∀ p c, r = Res.found p c →
          ValidPath m start goal p ∧ c = p.length ∧ p.Nodup) ∧
        (r = Res.nopath → ¬ Reachable m start goal) := by
  intro fuel
  induction fuel with
  | zero =>
    intro stack visited _ _ _ _ _ _ hfuel
    omega
  | succ f ih =>
    intro stack visited h1 h2 h3 h4 h5 h6 hfuel
    rcases stack with _ | ⟨⟨v, p⟩, rest⟩
    · rw [dfsAux_nil]
      refine ⟨Res.nopath, rfl, ?_, fun _ => ?_⟩
      · intro p c h
        cases h
      have hs : start ∈ visited := by
        rcases h3 with h | ⟨p, hp⟩
        · exact h
        · simp at hp
      have hcl : ∀ v ∈ visited, ∀ w ∈ get_neighbors m v, w ∈ visited := by
        intro v hv w hw
        rcases h4 v hv w hw with h | ⟨p, hp⟩
        · exact h
        · simp at hp
      exact not_reachable_of_closed m start goal visited hs h2 hcl
    · rw [dfsAux_cons]
      by_cases hv : v ∈ visited
      · rw [if_pos hv]
        refine ih rest visited ?_ h2 ?_ ?_ h5 h6 ?_
        · exact fun v' p' h => h1 v' p' (List.mem_cons_of_mem _ h)
        · rcases h3 with h | ⟨p', hp'⟩
          · exact Or.inl h
          · rcases List.mem_cons.mp hp' with h | h
            · have hsv : start = v := congrArg Prod.fst h
              exact Or.inl (hsv ▸ hv)
            · exact Or.inr ⟨p', h⟩
        · intro u hu w hw
          rcases h4 u hu w hw with h | ⟨p', hp'⟩
          · exact Or.inl h
          · rcases List.mem_cons.mp hp' with h | h
            · have hwv : w = v := congrArg Prod.fst h
              exact Or.inl (hwv ▸ hv)
            · exact Or.inr ⟨p', h⟩
        · simp only [List.length_cons] at hfuel
          omega
      · rw [if_neg hv]
        by_cases hg : v = goal
        · rw [if_pos hg]
          refine ⟨Res.found p p.length, rfl, ?_, by intro h; cases h⟩
          intro p' c' he
          injection he with hep hec
          subst hec
          subst hep
          rcases h1 v p (List.mem_cons_self _ _) with ⟨q, hq, hnd, hsub, hhead, hch⟩
          have hvq : v ∉ q := fun hmem => hv (hsub v hmem)
          refine ⟨⟨hhead, ?_, hch⟩, rfl, ?_⟩
          · rw [hq, List.getLast?_concat, hg]
          · rw [hq, List.nodup_append]
            exact ⟨hnd, List.nodup_singleton v, by
              intro a ha hb
              rcases List.mem_singleton.mp hb with rfl
              exact hvq ha⟩
        · rw [if_neg hg]
          have hentry := h1 v p (List.mem_cons_self _ _)
          rcases hentry with ⟨q, hq, hnd, hsub, hhead, hch⟩
          have hvq : v ∉ q := fun hmem => hv (hsub v hmem)
          have hpnd : p.Nodup := by
            rw [hq, List.nodup_append]
            exact ⟨hnd, List.nodup_singleton v, by
              intro a ha hb
              rcases List.mem_singleton.mp hb with rfl
              exact hvq ha⟩
          have hpne : p ≠ [] := by
            rw [hq]; exact List.append_ne_nil_of_right_ne_nil q (by simp)
          have hplast : p.getLast? = some v := by rw [hq, List.getLast?_concat]
          have hpsub : ∀ x ∈ p, x ∈ v :: visited := by
            intro x hx
            rw [hq] at hx
            rcases List.mem_append.mp hx with h | h
            · exact List.mem_cons_of_mem _ (hsub x h)
            · rcases List.mem_singleton.mp h with rfl
              exact List.mem_cons_self _ _
          -- the new cell is the start or in bounds
          have hvU : v = start ∨ inBounds m v := by
            cases q with
            | nil =>
              left
              simp [hq] at hhead
              exact hhead
            | cons a as =>
              right
              have hch2 : List.Chain' (fun a b => b ∈ get_neighbors m a)
                  ((a :: as) ++ [v]) := hq ▸ hch
              rcases chain_concat_mem _ (a :: as) v hch2 (by simp) with ⟨u', _, hr⟩
              exact nbr_inBounds hr
          have hvisnd : (v :: visited).Nodup := List.nodup_cons.mpr ⟨hv, h5⟩
          have hvisU : ∀ x ∈ v :: visited, x = start ∨ inBounds m x := by
            intro x hx
            rcases List.mem_cons.mp hx with rfl | hx
            · exact hvU
            · exact h6 x hx
          have hvlen : (v :: visited).length ≤ numU m :=
            card_bound m start (v :: visited) hvisnd hvisU
          refine ih _ (v :: visited) ?_ ?_ ?_ ?_ hvisnd hvisU ?_
          · intro v' p' hmem
            rcases List.mem_append.mp hmem with h | h
            · rw [List.mem_reverse, List.mem_map] at h
              rcases h with ⟨n, hn, he⟩
              have he1 : n = v' := congrArg Prod.fst he
              have he2 : p ++ [n] = p' := congrArg Prod.snd he
              subst he1
              subst he2
              refine ⟨p, rfl, hpnd, hpsub, ?_, ?_⟩
              · rw [head?_append_left p _ hpne]
                exact hhead
              · exact chain_concat_of _ p v n hch hplast hn
            · rcases h1 v' p' (List.mem_cons_of_mem _ h) with
                ⟨q', hq', hnd', hsub', hhead', hch'⟩
              exact ⟨q', hq', hnd',
                fun x hx => List.mem_cons_of_mem _ (hsub' x hx), hhead', hch'⟩
          · exact fun hmem => (List.mem_cons.mp hmem).elim
              (fun h => hg h.symm) h2
          · rcases h3 with h | ⟨p', hp'⟩
            · exact Or.inl (List.mem_cons_of_mem _ h)
            · rcases List.mem_cons.mp hp' with h | h
              · have hsv : start = v := congrArg Prod.fst h
                exact Or.inl (hsv ▸ List.mem_cons_self v visited)
              · exact Or.inr ⟨p', List.mem_append_right _ h⟩
          · intro u hu w hw
            rcases List.mem_cons.mp hu with rfl | hu
            · refine Or.inr ⟨p ++ [w], List.mem_append_left _ ?_⟩
              rw [List.mem_reverse, List.mem_map]
              exact ⟨w, hw, rfl⟩
            · rcases h4 u hu w hw with h | ⟨p', hp'⟩
              · exact Or.inl (List.mem_cons_of_mem _ h)
              · rcases List.mem_cons.mp hp' with h | h
                · have hwv : w = v := congrArg Prod.fst h
                  exact Or.inl (hwv ▸ List.mem_cons_self v visited)
                · exact Or.inr ⟨p', List.mem_append_right _ h⟩
          · have hlen2 := nbrs_len_le m v
            have e1 : (((get_neighbors m v).map
                (fun n => (n, p ++ [n]))).reverse ++ rest).length =
                (get_neighbors m v).length + rest.length := by
              rw [List.length_append, List.length_reverse, List.length_map]
            have e2 : ((v, p) :: rest).length = rest.length + 1 := by simp
            have e3 : (v :: visited).length = visited.length + 1 := by simp
            rw [e1, e3]
            rw [e2] at hfuel
            rw [e3] at hvlen
            omega

/-! ## The BFS basic master lemma -/

/-- Main loop invariant argument for `bfs`, identical in structure to
`dfs_master` (only the frontier discipline differs, which these
invariants do not depend on). -/
theorem bfs_master (m : Maze) (start goal : Cell) :
    ∀ (fuel : ℕ) (queue : List (Cell × List Cell)) (visited : List Cell),
      (∀ v p, (v, p) ∈ queue → ∃ q, p = q ++ [v] ∧ q.Nodup ∧
        (∀ x ∈ q, x ∈ visited) ∧ p.head? = some start ∧
        List.Chain' (fun a b => b ∈ get_neighbors m a) p) →
      goal ∉ visited →
      (start ∈ visited ∨ ∃ p, (start, p) ∈ queue) →
      (∀ v ∈ visited, ∀ w ∈ get_neighbors m v,
        w ∈ visited ∨ ∃ p, (w, p) ∈ queue) →
      visited.Nodup →
      (∀ v ∈ visited, v = start ∨ inBounds m v) →
      queue.length + 5 * (numU m - visited.length) + 1 ≤ fuel →
      ∃ r, bfsAux m goal fuel queue visited = some r ∧
        (∀ p c, r = Res.found p c →
          ValidPath m start goal p ∧ c = p.length ∧ p.Nodup) ∧
        (r = Res.nopath → ¬ Reachable m start goal) := by
  intro fuel
  induction fuel with
  | zero =>
    intro queue visited _ _ _ _ _ _ hfuel
    omega
  | succ f ih =>
    intro queue visited h1 h2 h3 h4 h5 h6 hfuel
    rcases queue with _ | ⟨⟨v, p⟩, rest⟩
    · rw [bfsAux_nil]
      refine ⟨Res.nopath, rfl, ?_, fun _ => ?_⟩
      · intro p c h
        cases h
      have hs : start ∈ visited := by
        rcases h3 with h | ⟨p, hp⟩
        · exact h
        · simp at hp
      have hcl : ∀ v ∈ visited, ∀ w ∈ get_neighbors m v, w ∈ visited := by
        intro v hv w hw
        rcases h4 v hv w hw with h | ⟨p, hp⟩
        · exact h
        · simp at hp
      exact not_reachable_of_closed m start goal visited hs h2 hcl
    · rw [bfsAux_cons]
      by_cases hv : v ∈ visited
      · rw [if_pos hv]
        refine ih rest visited ?_ h2 ?_ ?_ h5 h6 ?_
        · exact fun v' p' h => h1 v' p' (List.mem_cons_of_mem _ h)
        · rcases h3 with h | ⟨p', hp'⟩
          · exact Or.inl h
          · rcases List.mem_cons.mp hp' with h | h
            · have hsv : start = v := congrArg Prod.fst h
              exact Or.inl (hsv ▸ hv)
            · exact Or.inr ⟨p', h⟩
        · intro u hu w hw
          rcases h4 u hu w hw with h | ⟨p', hp'⟩
          · exact Or.inl h
          · rcases List.mem_cons.mp hp' with h | h
            · have hwv : w = v := congrArg Prod.fst h
              exact Or.inl (hwv ▸ hv)
            · exact Or.inr ⟨p', h⟩
        · simp only [List.length_cons] at hfuel
          omega
      · rw [if_neg hv]
        by_cases hg : v = goal
        · rw [if_pos hg]
          refine ⟨Res.found p p.length, rfl, ?_, by intro h; cases h⟩
          intro p' c' he
          injection he with hep hec
          subst hec
          subst hep
          rcases h1 v p (List.mem_cons_self _ _) with ⟨q, hq, hnd, hsub, hhead, hch⟩
          have hvq : v ∉ q := fun hmem => hv (hsub v hmem)
          refine ⟨⟨hhead, ?_, hch⟩, rfl, ?_⟩
          · rw [hq, List.getLast?_concat, hg]
          · rw [hq, List.nodup_append]
            exact ⟨hnd, List.nodup_singleton v, by
              intro a ha hb
              rcases List.mem_singleton.mp hb with rfl
              exact hvq ha⟩
        · rw [if_neg hg]
          have hentry := h1 v p (List.mem_cons_self _ _)
          rcases hentry with ⟨q, hq, hnd, hsub, hhead, hch⟩
          have hvq : v ∉ q := fun hmem => hv (hsub v hmem)
          have hpnd : p.Nodup := by
            rw [hq, List.nodup_append]
            exact ⟨hnd, List.nodup_singleton v, by
              intro a ha hb
              rcases List.mem_singleton.mp hb with rfl
              exact hvq ha⟩
          have hpne : p ≠ [] := by
            rw [hq]; exact List.append_ne_nil_of_right_ne_nil q (by simp)
          have hplast : p.getLast? = some v := by rw [hq, List.getLast?_concat]
          have hpsub : ∀ x ∈ p, x ∈ v :: visited := by
            intro x hx
            rw [hq] at hx
            rcases List.mem_append.mp hx with h | h
            · exact List.mem_cons_of_mem _ (hsub x h)
            · rcases List.mem_singleton.mp h with rfl
              exact List.mem_cons_self _ _
          have hvU : v = start ∨ inBounds m v := by
            cases q with
            | nil =>
              left
              simp [hq] at hhead
              exact hhead
            | cons a as =>
              right
              have hch2 : List.Chain' (fun a b => b ∈ get_neighbors m a)
                  ((a :: as) ++ [v]) := hq ▸ hch
              rcases chain_concat_mem _ (a :: as) v hch2 (by simp) with ⟨u', _, hr⟩
              exact nbr_inBounds hr
          have hvisnd : (v :: visited).Nodup := List.nodup_cons.mpr ⟨hv, h5⟩
          have hvisU : ∀ x ∈ v :: visited, x = start ∨ inBounds m x := by
            intro x hx
            rcases List.mem_cons.mp hx with rfl | hx
            · exact hvU
            · exact h6 x hx
          have hvlen : (v :: visited).length ≤ numU m :=
            card_bound m start (v :: visited) hvisnd hvisU
          refine ih _ (v :: visited) ?_ ?_ ?_ ?_ hvisnd hvisU ?_
          · intro v' p' hmem
            rcases List.mem_append.mp hmem with h | h
            · rcases h1 v' p' (List.mem_cons_of_mem _ h) with
                ⟨q', hq', hnd', hsub', hhead', hch'⟩
              exact ⟨q', hq', hnd',
                fun x hx => List.mem_cons_of_mem _ (hsub' x hx), hhead', hch'⟩
            · rw [List.mem_map] at h
              rcases h with ⟨n, hn, he⟩
              have he1 : n = v' := congrArg Prod.fst he
              have he2 : p ++ [n] = p' := congrArg Prod.snd he
              subst he1
              subst he2
              refine ⟨p, rfl, hpnd, hpsub, ?_, ?_⟩
              · rw [head?_append_left p _ hpne]
                exact hhead
              · exact chain_concat_of _ p v n hch hplast hn
          · exact fun hmem => (List.mem_cons.mp hmem).elim
              (fun h => hg h.symm) h2
          · rcases h3 with h | ⟨p', hp'⟩
            · exact Or.inl (List.mem_cons_of_mem _ h)
            · rcases List.mem_cons.mp hp' with h | h
              · have hsv : start = v := congrArg Prod.fst h
                exact Or.inl (hsv ▸ List.mem_cons_self v visited)
              · exact Or.inr ⟨p', List.mem_append_left _ h⟩
          · intro u hu w hw
            rcases List.mem_cons.mp hu with rfl | hu
            · refine Or.inr ⟨p ++ [w], List.mem_append_right _ ?_⟩
              rw [List.mem_map]
              exact ⟨w, hw, rfl⟩
            · rcases h4 u hu w hw with h | ⟨p', hp'⟩
              · exact Or.inl (List.mem_cons_of_mem _ h)
              · rcases List.mem_cons.mp hp' with h | h
                · have hwv : w = v := congrArg Prod.fst h
                  exact Or.inl (hwv ▸ List.mem_cons_self v visited)
                · exact Or.inr ⟨p', List.mem_append_left _ h⟩
          · have hlen2 := nbrs_len_le m v
            have e1 : (rest ++ (get_neighbors m v).map
                (fun n => (n, p ++ [n]))).length =
                rest.length + (get_neighbors m v).length := by
              rw [List.length_append, List.length_map]
            have e2 : ((v, p) :: rest).length = rest.length + 1 := by simp
            have e3 : (v :: visited).length = visited.length + 1 := by simp
            rw [e1, e3]
            rw [e2] at hfuel
            rw [e3] at hvlen
            omega

/-! ## The BFS optimality lemmas -/

/-- Core step of the BFS shortest-path argument.  If the BFS invariants
hold (frontier sorted by path length, every neighbor of a visited cell
is visited or queued one step below its parent's depth `D`, cells of the
competitor path `qp` were visited at depth at most index+1, the start
entry is queued while unvisited), then whenever the front of the queue
is an unvisited cell sitting at index `i` of `qp`, the front path has
length at most `i + 1`. -/
theorem bfs_front_bound (m : Maze) (start : Cell) (qp : List Cell)
    (hlen : 0 < qp.length)
    (hstart : qp.get ⟨0, hlen⟩ = start)
    (hstep : ∀ i (h : i + 1 < qp.length),
      qp.get ⟨i + 1, h⟩ ∈ get_neighbors m (qp.get ⟨i, by omega⟩))
    (queue : List (Cell × List Cell)) (visited : List Cell) (D : Cell → ℕ)
    (hW1 : queue.Pairwise (fun e f => e.2.length ≤ f.2.length))
    (hW3 : ∀ v ∈ visited, ∀ w ∈ get_neighbors m v,
      w ∈ visited ∨ ∃ pw, (w, pw) ∈ queue ∧ pw.length ≤ D v + 1)
    (hW4 : ∀ i (h : i < qp.length), qp.get ⟨i, h⟩ ∈ visited →
      D (qp.get ⟨i, h⟩) ≤ i + 1)
    (hW5 : start ∉ visited → (start, [start]) ∈ queue)
    (v : Cell) (p : List Cell) (rest : List (Cell × List Cell))
    (hqueue : queue = (v, p) :: rest)
    (hv : v ∉ visited) (i : ℕ) (hi : i < qp.length)
    (hvi : qp.get ⟨i, hi⟩ = v) :
    p.length ≤ i + 1 := by
  classical
  have hgetD : ∀ (j : ℕ) (h : j < qp.length), qp.getD j (0, 0) = qp.get ⟨j, h⟩ := by
    intro j h
    rw [List.getD_eq_getElem qp (0, 0) h]
    simp [List.get_eq_getElem]
  have hex : ∃ j, j < qp.length ∧ qp.getD j (0, 0) ∉ visited :=
    ⟨i, hi, by rw [hgetD i hi, hvi]; exact hv⟩
  set j := Nat.find hex with hjdef
  have hj : j < qp.length ∧ qp.getD j (0, 0) ∉ visited := Nat.find_spec hex
  have hjle : j ≤ i := Nat.find_min' hex ⟨hi, by rw [hgetD i hi, hvi]; exact hv⟩
  have hjnv : qp.get ⟨j, hj.1⟩ ∉ visited := by rw [← hgetD j hj.1]; exact hj.2
  have hwitness : ∃ pw, (qp.get ⟨j, hj.1⟩, pw) ∈ queue ∧ pw.length ≤ j + 1 := by
    rcases Nat.eq_zero_or_pos j with hj0 | hpos
    · have hsv : qp.get ⟨j, hj.1⟩ = start := by
        have hfin0 : (⟨j, hj.1⟩ : Fin qp.length) = ⟨0, hlen⟩ := by
          simp only [Fin.mk.injEq]
          omega
        rw [hfin0, hstart]
      rw [hsv]
      refine ⟨[start], hW5 ?_, by simp⟩
      rw [← hsv]
      exact hjnv
    · have hj1 : j - 1 < qp.length := by omega
      have hprev : qp.get ⟨j - 1, hj1⟩ ∈ visited := by
        have hmin := Nat.find_min hex (m := j - 1) (by omega)
        rw [not_and] at hmin
        have := not_not.mp (hmin hj1)
        rw [hgetD (j - 1) hj1] at this
        exact this
      have hs1 : j - 1 + 1 < qp.length := by omega
      have hstep1 := hstep (j - 1) hs1
      have hfin : (⟨j - 1 + 1, hs1⟩ : Fin qp.length) = ⟨j, hj.1⟩ := by
        simp only [Fin.mk.injEq]
        omega
      rw [hfin] at hstep1
      rcases hW3 _ hprev _ hstep1 with hmem | ⟨pw, hpw, hlenpw⟩
      · exact absurd hmem hjnv
      · refine ⟨pw, hpw, ?_⟩
        have hD := hW4 (j - 1) hj1 hprev
        omega
  rcases hwitness with ⟨pw, hpwmem, hpwlen⟩
  rw [hqueue] at hpwmem
  rcases List.mem_cons.mp hpwmem with heq | hmem
  · have hpp : pw = p := congrArg Prod.snd heq
    rw [hpp] at hpwlen
    omega
  · rw [hqueue] at hW1
    have hfront : p.length ≤ pw.length := (List.pairwise_cons.mp hW1).1 _ hmem
    omega

/-- All mapped push entries share the same path length. -/
theorem push_len (p : List Cell) (nbrs : List Cell) :
    ∀ f ∈ nbrs.map (fun n => (n, p ++ [n])), f.2.length = p.length + 1 := by
  intro f hf
  rw [List.mem_map] at hf
  rcases hf with ⟨n, _, he⟩
  rw [← he]
  simp

/-- The BFS optimality master lemma: given a duplicate-free competitor
path `qp` from start to goal and a loop state satisfying the sortedness,
window, neighbor-frontier, depth-bound and start-entry invariants, any
found result has length at most that of `qp`. -/
theorem bfs_opt_master (m : Maze) (start goal : Cell) (qp : List Cell)
    (hlen : 0 < qp.length)
    (hstart : qp.get ⟨0, hlen⟩ = start)
    (hgoal : qp.get ⟨qp.length - 1, by omega⟩ = goal)
    (hstep : ∀ i (h : i + 1 < qp.length),
      qp.get ⟨i + 1, h⟩ ∈ get_neighbors m (qp.get ⟨i, by omega⟩)) :
    ∀ (fuel : ℕ) (queue : List (Cell × List Cell)) (visited : List Cell)
      (D : Cell → ℕ),
      queue.Pairwise (fun e f => e.2.length ≤ f.2.length) →
      (∀ e ∈ queue, ∀ f ∈ queue, e.2.length ≤ f.2.length + 1) →
      (∀ v ∈ visited, ∀ w ∈ get_neighbors m v,
        w ∈ visited ∨ ∃ pw, (w, pw) ∈ queue ∧ pw.length ≤ D v + 1) →
      (∀ i (h : i < qp.length), qp.get ⟨i, h⟩ ∈ visited →
        D (qp.get ⟨i, h⟩) ≤ i + 1) →
      (start ∉ visited → (start, [start]) ∈ queue) →
      ∀ p c, bfsAux m goal fuel queue visited = some (Res.found p c) →
        p.length ≤ qp.length := by
  intro fuel
  induction fuel with
  | zero =>
    intro queue visited D _ _ _ _ _ p c h
    rw [bfsAux_zero] at h
    cases h
  | succ f ih =>
    intro queue visited D hW1 hW2 hW3 hW4 hW5 p c h
    rcases queue with _ | ⟨⟨v, pv⟩, rest⟩
    · rw [bfsAux_nil] at h
      cases h
    · rw [bfsAux_cons] at h
      by_cases hv : v ∈ visited
      · rw [if_pos hv] at h
        refine ih rest visited D ((List.pairwise_cons.mp hW1).2) ?_ ?_ hW4 ?_ p c h
        · exact fun e he f hf =>
            hW2 e (List.mem_cons_of_mem _ he) f (List.mem_cons_of_mem _ hf)
        · intro u hu w hw
          rcases hW3 u hu w hw with hmem | ⟨pw, hpw, hlenpw⟩
          · exact Or.inl hmem
          · rcases List.mem_cons.mp hpw with heq | hmem2
            · have hwv : w = v := congrArg Prod.fst heq
              exact Or.inl (hwv ▸ hv)
            · exact Or.inr ⟨pw, hmem2, hlenpw⟩
        · intro hns
          rcases List.mem_cons.mp (hW5 hns) with heq | hmem2
          · have hsv : start = v := congrArg Prod.fst heq
            exact absurd (hsv ▸ hv) hns
          · exact hmem2
      · rw [if_neg hv] at h
        by_cases hg : v = goal
        · rw [if_pos hg] at h
          injection h with h2
          injection h2 with hep hec
          subst hep
          have hi : qp.length - 1 < qp.length := by omega
          have hbound := bfs_front_bound m start qp hlen hstart hstep
            ((v, pv) :: rest) visited D hW1 hW3 hW4 hW5 v pv rest rfl hv
            (qp.length - 1) hi (by rw [hg]; exact hgoal)
          omega
        · rw [if_neg hg] at h
          -- the expansion step: visit v at depth pv.length
          have hbound : ∀ (i : ℕ) (hi : i < qp.length), qp.get ⟨i, hi⟩ = v →
              pv.length ≤ i + 1 := fun i hi hvi =>
            bfs_front_bound m start qp hlen hstart hstep
              ((v, pv) :: rest) visited D hW1 hW3 hW4 hW5 v pv rest rfl hv i hi hvi
          have hrestW1 := (List.pairwise_cons.mp hW1).2
          have hfrontle := (List.pairwise_cons.mp hW1).1
          have hpushlen := push_len pv (get_neighbors m v)
          refine ih _ (v :: visited) (fun c => if c = v then pv.length else D c)
            ?_ ?_ ?_ ?_ ?_ p c h
          · -- sortedness of rest ++ pushes
            rw [List.pairwise_append]
            refine ⟨hrestW1, ?_, ?_⟩
            · rw [List.pairwise_map]
              have : ∀ (l : List Cell), l.Pairwise (fun a b =>
                  (a, pv ++ [a]).2.length ≤ (b, pv ++ [b]).2.length) := by
                intro l
                induction l with
                | nil => exact List.Pairwise.nil
                | cons x xs ihl => exact List.Pairwise.cons (fun b _ => by simp) ihl
              exact this _
            · intro e he f hf
              have h1 := hW2 e (List.mem_cons_of_mem _ he) (v, pv) (List.mem_cons_self _ _)
              have h2 := hpushlen f hf
              simp only at h1
              omega
          · -- window on rest ++ pushes
            intro e he f hf
            rcases List.mem_append.mp he with he1 | he1 <;>
              rcases List.mem_append.mp hf with hf1 | hf1
            · exact hW2 e (List.mem_cons_of_mem _ he1) f (List.mem_cons_of_mem _ hf1)
            · have h1 := hW2 e (List.mem_cons_of_mem _ he1) (v, pv) (List.mem_cons_self _ _)
              have h2 := hpushlen f hf1
              simp only at h1
              omega
            · have h1 := hfrontle f hf1
              have h2 := hpushlen e he1
              simp only at h1
              omega
            · have h1 := hpushlen e he1
              have h2 := hpushlen f hf1
              omega
          · -- neighbor-frontier invariant
            intro u hu w hw
            rcases List.mem_cons.mp hu with rfl | hu
            · refine Or.inr ⟨pv ++ [w], List.mem_append_right _ ?_, ?_⟩
              · rw [List.mem_map]
                exact ⟨w, hw, rfl⟩
              · simp
            · have huv : u ≠ v := fun he => hv (he ▸ hu)
              rcases hW3 u hu w hw with hmem | ⟨pw, hpw, hlenpw⟩
              · exact Or.inl (List.mem_cons_of_mem _ hmem)
              · rcases List.mem_cons.mp hpw with heq | hmem2
                · have hwv : w = v := congrArg Prod.fst heq
                  exact Or.inl (hwv ▸ List.mem_cons_self v visited)
                · refine Or.inr ⟨pw, List.mem_append_left _ hmem2, ?_⟩
                  show pw.length ≤ (if u = v then pv.length else D u) + 1
                  rw [if_neg huv]
                  exact hlenpw
          · -- depth bound along qp
            intro i hqi hmem
            rcases List.mem_cons.mp hmem with heqv | hmem2
            · show (if qp.get ⟨i, hqi⟩ = v then pv.length else D (qp.get ⟨i, hqi⟩)) ≤ i + 1
              rw [if_pos heqv]
              exact hbound i hqi heqv
            · have hne : qp.get ⟨i, hqi⟩ ≠ v := fun he => hv (he ▸ hmem2)
              show (if qp.get ⟨i, hqi⟩ = v then pv.length else D (qp.get ⟨i, hqi⟩)) ≤ i + 1
              rw [if_neg hne]
              exact hW4 i hqi hmem2
          · -- start entry
            intro hns
            have hns2 : start ∉ visited := fun hmem => hns (List.mem_cons_of_mem _ hmem)
            have hnsv : start ≠ v := fun he => hns (he ▸ List.mem_cons_self v visited)
            rcases List.mem_cons.mp (hW5 hns2) with heq | hmem2
            · exact absurd (congrArg Prod.fst heq) hnsv
            · exact List.mem_append_left _ hmem2

/-! ## Lemmas about the priority queue model -/

theorem le_of_entryLe {e f : AEntry} (h : entryLe e f = true) : e.pri ≤ f.pri := by
  unfold entryLe at h
  rw [Bool.or_eq_true] at h
  rcases h with h | h
  · exact le_of_lt (of_decide_eq_true h)
  · rw [Bool.and_eq_true] at h
    exact le_of_eq (eq_of_beq h.1)

theorem le_of_not_entryLe {e f : AEntry} (h : entryLe e f = false) :
    f.pri ≤ e.pri := by
  unfold entryLe at h
  rw [Bool.or_eq_false_iff] at h
  exact le_of_not_lt (of_decide_eq_false h.1)

theorem popMin_eq_none {l : List AEntry} (h : popMin l = none) : l = [] := by
  cases l with
  | nil => rfl
  | cons e es =>
    exfalso
    rw [show popMin (e :: es) = match popMin es with
      | none => some (e, [])
      | some (f, rest) => if entryLe e f then some (e, es) else some (f, e :: rest)
      from rfl] at h
    rcases hp : popMin es with _ | ⟨f, rest⟩ <;> rw [hp] at h
    · cases h
    · by_cases hle : entryLe e f <;> simp [hle] at h

theorem popMin_cons (e : AEntry) (es : List AEntry) :
    popMin (e :: es) = match popMin es with
      | none => some (e, [])
      | some (f, rest) => if entryLe e f then some (e, es)
        else some (f, e :: rest) := rfl

theorem popMin_perm : ∀ {l : List AEntry} {e : AEntry} {r : List AEntry},
    popMin l = some (e, r) → l.Perm (e :: r)
  | [], e, r, h => by cases h
  | x :: es, e, r, h => by
    rw [popMin_cons] at h
    rcases hp : popMin es with _ | ⟨f, rest⟩ <;> rw [hp] at h
    · have he : es = [] := popMin_eq_none hp
      subst he
      have h2 : some (x, ([] : List AEntry)) = some (e, r) := h
      injection h2 with h1
      have he1 : x = e := congrArg Prod.fst h1
      have he2 : ([] : List AEntry) = r := congrArg Prod.snd h1
      subst he1
      subst he2
      exact List.Perm.refl _
    · have ihp : es.Perm (f :: rest) := popMin_perm hp
      have h2 : (if entryLe x f = true then some (x, es)
        else some (f, x :: rest)) = some (e, r) := h
      by_cases hle : entryLe x f = true
      · rw [if_pos hle] at h2
        injection h2 with h1
        have he1 : x = e := congrArg Prod.fst h1
        have he2 : es = r := congrArg Prod.snd h1
        subst he1
        subst he2
        exact List.Perm.refl _
      · rw [if_neg hle] at h2
        injection h2 with h1
        have he1 : f = e := congrArg Prod.fst h1
        have he2 : x :: rest = r := congrArg Prod.snd h1
        subst he1
        subst he2
        exact List.Perm.trans (List.Perm.cons x ihp) (List.Perm.swap _ x rest)

theorem popMin_min : ∀ {l : List AEntry} {e : AEntry} {r : List AEntry},
    popMin l = some (e, r) → ∀ f ∈ l, e.pri ≤ f.pri
  | [], e, r, h => by cases h
  | x :: es, e, r, h => by
    rw [popMin_cons] at h
    rcases hp : popMin es with _ | ⟨g, rest⟩ <;> rw [hp] at h
    · have he : es = [] := popMin_eq_none hp
      subst he
      have h2 : some (x, ([] : List AEntry)) = some (e, r) := h
      injection h2 with h1
      have he1 : x = e := congrArg Prod.fst h1
      subst he1
      intro f hf
      rcases List.mem_singleton.mp hf with rfl
      exact le_refl _
    · have ihm : ∀ f ∈ es, g.pri ≤ f.pri := popMin_min hp
      have h2 : (if entryLe x g = true then some (x, es)
        else some (g, x :: rest)) = some (e, r) := h
      by_cases hle : entryLe x g = true
      · rw [if_pos hle] at h2
        injection h2 with h1
        have he1 : x = e := congrArg Prod.fst h1
        subst he1
        intro f hf
        rcases List.mem_cons.mp hf with rfl | hf
        · exact le_refl _
        · exact le_trans (le_of_entryLe hle) (ihm f hf)
      · rw [if_neg hle] at h2
        injection h2 with h1
        have he1 : g = e := congrArg Prod.fst h1
        subst he1
        intro f hf
        rcases List.mem_cons.mp hf with rfl | hf
        · exact le_of_not_entryLe (Bool.eq_false_iff.mpr hle)
        · exact ihm f hf

/-! ## Lemmas about the cost-so-far dictionary -/

theorem lookup_setCsf_self : ∀ (csf : List (Cell × ℚ)) (c : Cell) (v : ℚ),
    lookupCsf (setCsf csf c v) c = some v
  | [], c, v => by simp [setCsf, lookupCsf]
  | (k, w) :: rest, c, v => by
    by_cases hk : k = c
    · simp [setCsf, hk, lookupCsf]
    · simp only [setCsf, if_neg hk, lookupCsf]
      exact lookup_setCsf_self rest c v

theorem lookup_setCsf_other : ∀ (csf : List (Cell × ℚ)) (c c' : Cell) (v : ℚ),
    c' ≠ c → lookupCsf (setCsf csf c v) c' = lookupCsf csf c'
  | [], c, c', v, h => by
    simp only [setCsf, lookupCsf]
    rw [if_neg (fun he => h he.symm)]
  | (k, w) :: rest, c, c', v, h => by
    by_cases hk : k = c
    · subst hk
      simp only [setCsf, if_pos rfl, lookupCsf]
      rw [if_neg (fun he => h he.symm), if_neg (fun he => h he.symm)]
    · simp only [setCsf, if_neg hk, lookupCsf]
      by_cases hk' : k = c'
      · rw [if_pos hk', if_pos hk']
      · rw [if_neg hk', if_neg hk']
        exact lookup_setCsf_other rest c c' v h

theorem setCsf_length_of_mem : ∀ (csf : List (Cell × ℚ)) (c : Cell) (v w : ℚ),
    lookupCsf csf c = some w → (setCsf csf c v).length = csf.length
  | [], c, v, w, h => by cases h
  | (k, u) :: rest, c, v, w, h => by
    by_cases hk : k = c
    · simp [setCsf, hk]
    · simp only [lookupCsf, if_neg hk] at h
      simp only [setCsf, if_neg hk, List.length_cons]
      rw [setCsf_length_of_mem rest c v w h]

theorem setCsf_length_of_not_mem : ∀ (csf : List (Cell × ℚ)) (c : Cell) (v : ℚ),
    lookupCsf csf c = none → (setCsf csf c v).length = csf.length + 1
  | [], c, v, _ => by simp [setCsf]
  | (k, u) :: rest, c, v, h => by
    by_cases hk : k = c
    · simp only [lookupCsf, if_pos hk] at h
      cases h
    · simp only [lookupCsf, if_neg hk] at h
      simp only [setCsf, if_neg hk, List.length_cons]
      rw [setCsf_length_of_not_mem rest c v h]

theorem csfS_setCsf_mem : ∀ (csf : List (Cell × ℚ)) (c : Cell) (v w : ℚ),
    lookupCsf csf c = some w →
    csfS (setCsf csf c v) + w.num.toNat = csfS csf + v.num.toNat
  | [], c, v, w, h => by cases h
  | (k, u) :: rest, c, v, w, h => by
    by_cases hk : k = c
    · simp only [lookupCsf, if_pos hk] at h
      injection h with h1
      subst h1
      simp only [setCsf, if_pos hk, csfS, List.foldr]
      omega
    · simp only [lookupCsf, if_neg hk] at h
      simp only [setCsf, if_neg hk, csfS, List.foldr]
      have ihr := csfS_setCsf_mem rest c v w h
      unfold csfS at ihr
      omega

theorem csfS_setCsf_not_mem : ∀ (csf : List (Cell × ℚ)) (c : Cell) (v : ℚ),
    lookupCsf csf c = none →
    csfS (setCsf csf c v) = csfS csf + v.num.toNat
  | [], c, v, _ => by simp [setCsf, csfS]
  | (k, u) :: rest, c, v, h => by
    by_cases hk : k = c
    · simp only [lookupCsf, if_pos hk] at h
      cases h
    · simp only [lookupCsf, if_neg hk] at h
      simp only [setCsf, if_neg hk, csfS, List.foldr]
      have ihr := csfS_setCsf_not_mem rest c v h
      unfold csfS at ihr
      omega

theorem mem_keys_setCsf : ∀ (csf : List (Cell × ℚ)) (c : Cell) (v : ℚ) (x : Cell),
    x ∈ (setCsf csf c v).map Prod.fst → x ∈ csf.map Prod.fst ∨ x = c
  | [], c, v, x, h => by
    simp [setCsf] at h
    exact Or.inr h
  | (k, u) :: rest, c, v, x, h => by
    by_cases hk : k = c
    · simp only [setCsf, if_pos hk, List.map_cons, List.mem_cons] at h
      rcases h with rfl | h
      · exact Or.inr rfl
      · exact Or.inl (by simp [h])
    · simp only [setCsf, if_neg hk, List.map_cons, List.mem_cons] at h
      rcases h with rfl | h
      · exact Or.inl (by simp)
      · rcases mem_keys_setCsf rest c v x h with h2 | h2
        · exact Or.inl (by simp [List.mem_cons]; right; simpa using h2)
        · exact Or.inr h2

theorem keys_nodup_setCsf : ∀ (csf : List (Cell × ℚ)) (c : Cell) (v : ℚ),
    (csf.map Prod.fst).Nodup → ((setCsf csf c v).map Prod.fst).Nodup
  | [], c, v, _ => by simp [setCsf]
  | (k, u) :: rest, c, v, h => by
    rw [List.map_cons, List.nodup_cons] at h
    by_cases hk : k = c
    · simp only [setCsf, if_pos hk, List.map_cons, List.nodup_cons]
      exact ⟨hk ▸ h.1, h.2⟩
    · simp only [setCsf, if_neg hk, List.map_cons, List.nodup_cons]
      refine ⟨?_, keys_nodup_setCsf rest c v h.2⟩
      intro hmem
      rcases mem_keys_setCsf rest c v k hmem with h2 | h2
      · exact h.1 h2
      · exact hk h2

theorem lookup_none_of_not_mem_keys : ∀ (csf : List (Cell × ℚ)) (c : Cell),
    c ∉ csf.map Prod.fst → lookupCsf csf c = none
  | [], c, _ => rfl
  | (k, u) :: rest, c, h => by
    simp only [List.map_cons, List.mem_cons] at h
    push_neg at h
    simp only [lookupCsf]
    rw [if_neg (fun he => h.1 he.symm)]
    exact lookup_none_of_not_mem_keys rest c (h.2)

theorem mem_keys_of_lookup : ∀ (csf : List (Cell × ℚ)) (c : Cell) (v : ℚ),
    lookupCsf csf c = some v → c ∈ csf.map Prod.fst
  | [], c, v, h => by cases h
  | (k, u) :: rest, c, v, h => by
    simp only [lookupCsf] at h
    by_cases hk : k = c
    · simp [hk]
    · rw [if_neg hk] at h
      simp only [List.map_cons, List.mem_cons]
      exact Or.inr (mem_keys_of_lookup rest c v h)

/-! ## Equations for the A* relaxation step -/

theorem relax_of_none (m : Maze) (goal state : Cell) (path : List Cell)
    (q : List AEntry) (csf : List (Cell × ℚ)) (nb : Cell)
    (h : lookupCsf csf nb = none) :
    relax m goal state path (q, csf) nb =
      (q ++ [⟨(lookupCsf csf state).getD 0 + calculate_cost m state nb +
          heuristic goal nb, nb, path ++ [nb]⟩],
        setCsf csf nb ((lookupCsf csf state).getD 0 + calculate_cost m state nb)) := by
  unfold relax
  rw [h]

theorem relax_of_lt (m : Maze) (goal state : Cell) (path : List Cell)
    (q : List AEntry) (csf : List (Cell × ℚ)) (nb : Cell) (old : ℚ)
    (h : lookupCsf csf nb = some old)
    (hlt : (lookupCsf csf state).getD 0 + calculate_cost m state nb < old) :
    relax m goal state path (q, csf) nb =
      (q ++ [⟨(lookupCsf csf state).getD 0 + calculate_cost m state nb +
          heuristic goal nb, nb, path ++ [nb]⟩],
        setCsf csf nb ((lookupCsf csf state).getD 0 + calculate_cost m state nb)) := by
  unfold relax
  rw [h]
  simp only [if_pos hlt]

theorem relax_of_ge (m : Maze) (goal state : Cell) (path : List Cell)
    (q : List AEntry) (csf : List (Cell × ℚ)) (nb : Cell) (old : ℚ)
    (h : lookupCsf csf nb = some old)
    (hge : ¬ ((lookupCsf csf state).getD 0 + calculate_cost m state nb < old)) :
    relax m goal state path (q, csf) nb = (q, csf) := by
  unfold relax
  rw [h]
  simp only [if_neg hge]

/-! ## The A* termination measure: one relaxation step -/

theorem relax_step_basic (m : Maze) (start goal v : Cell) (pv : List Cell)
    (q : List AEntry) (csf : List (Cell × ℚ)) (nb : Cell)
    (hnb : nb ∈ get_neighbors m v)
    (hnd : (csf.map Prod.fst).Nodup)
    (hU : ∀ k ∈ csf.map Prod.fst, k = start ∨ inBounds m k)
    (hB : ∀ c w, lookupCsf csf c = some w → ∃ n : ℕ, w = (n : ℚ) ∧ n ≤ 4 * csf.length) :
    ∀ q' csf', relax m goal v pv (q, csf) nb = (q', csf') →
      (csf'.map Prod.fst).Nodup ∧
      (∀ k ∈ csf'.map Prod.fst, k = start ∨ inBounds m k) ∧
      (∀ c w, lookupCsf csf' c = some w → ∃ n : ℕ, w = (n : ℚ) ∧ n ≤ 4 * csf'.length) ∧
      (q'.length + 2 * phiCsf m csf' ≤ q.length + 2 * phiCsf m csf) ∧
      (∀ e ∈ q', e ∈ q ∨ (e.cell ∈ get_neighbors m v ∧ e.path = pv ++ [e.cell])) := by
  intro q' csf' heq
  have hsc : ∃ n : ℕ, (lookupCsf csf v).getD 0 = (n : ℚ) ∧ n ≤ 4 * csf.length := by
    cases hv : lookupCsf csf v with
    | none => exact ⟨0, by simp [hv], by omega⟩
    | some w =>
      rcases hB v w hv with ⟨n, hn1, hn2⟩
      exact ⟨n, by simp [hv, hn1], hn2⟩
  rcases hsc with ⟨ns, hns, hnsle⟩
  rcases cost_nbr_nat hnb with ⟨k, hk1, hk4, hkc⟩
  have hncn : (lookupCsf csf v).getD 0 + calculate_cost m v nb = ((ns + k : ℕ) : ℚ) := by
    rw [hns, hkc]
    push_cast
    ring
  -- the common "push" case
  have hpush : ∀ (hlen' : csf'.length = csf.length ∨ csf'.length = csf.length + 1),
      csf' = setCsf csf nb ((lookupCsf csf v).getD 0 + calculate_cost m v nb) →
      (csf'.map Prod.fst).Nodup ∧
      (∀ x ∈ csf'.map Prod.fst, x = start ∨ inBounds m x) := by
    intro _ hcsf'
    subst hcsf'
    refine ⟨keys_nodup_setCsf csf nb _ hnd, ?_⟩
    intro x hx
    rcases mem_keys_setCsf csf nb _ x hx with h2 | h2
    · exact hU x h2
    · exact Or.inr (h2 ▸ nbr_inBounds hnb)
  cases hnb2 : lookupCsf csf nb with
  | none =>
    rw [relax_of_none m goal v pv q csf nb hnb2] at heq
    have hq' : q ++ [⟨(lookupCsf csf v).getD 0 + calculate_cost m v nb +
        heuristic goal nb, nb, pv ++ [nb]⟩] = q' := congrArg Prod.fst heq
    have hcsf' : setCsf csf nb ((lookupCsf csf v).getD 0 + calculate_cost m v nb) = csf' :=
      congrArg Prod.snd heq
    subst hq'
    subst hcsf'
    have hlen' : (setCsf csf nb ((lookupCsf csf v).getD 0 +
        calculate_cost m v nb)).length = csf.length + 1 :=
      setCsf_length_of_not_mem csf nb _ hnb2
    have hndU := hpush (Or.inr hlen') rfl
    have hlenU : csf.length + 1 ≤ numU m := by
      have h1 := card_bound m start _ hndU.1 hndU.2
      rw [List.length_map, hlen'] at h1
      exact h1
    refine ⟨hndU.1, hndU.2, ?_, ?_, ?_⟩
    · intro c w hw
      by_cases hc : c = nb
      · subst hc
        rw [lookup_setCsf_self] at hw
        injection hw with hw1
        refine ⟨ns + k, by rw [← hw1, hncn], ?_⟩
        rw [hlen']
        omega
      · rw [lookup_setCsf_other csf nb c _ hc] at hw
        rcases hB c w hw with ⟨n, hn1, hn2⟩
        refine ⟨n, hn1, ?_⟩
        rw [hlen']
        omega
    · -- the measure strictly decreases on a fresh push
      have hS : csfS (setCsf csf nb ((lookupCsf csf v).getD 0 +
          calculate_cost m v nb)) = csfS csf + (ns + k) := by
        have hnum : ((ns + k : ℕ) : ℚ).num.toNat = ns + k := by
          rw [Rat.num_natCast]
          exact Int.toNat_natCast _
        rw [csfS_setCsf_not_mem csf nb _ hnb2, hncn, hnum]
      have hT : (numU m - csf.length) * (4 * numU m + 1) =
          (numU m - (csf.length + 1)) * (4 * numU m + 1) + (4 * numU m + 1) := by
        have e2 : numU m - csf.length = (numU m - (csf.length + 1)) + 1 := by omega
        rw [e2, Nat.add_mul, one_mul]
      unfold phiCsf
      rw [hS, hlen', hT, List.length_append]
      simp only [List.length_cons, List.length_nil]
      have hnk : ns + k ≤ 4 * numU m := by omega
      omega
    · intro e he
      rcases List.mem_append.mp he with h2 | h2
      · exact Or.inl h2
      · rcases List.mem_singleton.mp h2 with rfl
        exact Or.inr ⟨hnb, rfl⟩
  | some old =>
    by_cases hlt : (lookupCsf csf v).getD 0 + calculate_cost m v nb < old
    · rw [relax_of_lt m goal v pv q csf nb old hnb2 hlt] at heq
      have hq' : q ++ [⟨(lookupCsf csf v).getD 0 + calculate_cost m v nb +
          heuristic goal nb, nb, pv ++ [nb]⟩] = q' := congrArg Prod.fst heq
      have hcsf' : setCsf csf nb ((lookupCsf csf v).getD 0 + calculate_cost m v nb) = csf' :=
        congrArg Prod.snd heq
      subst hq'
      subst hcsf'
      have hlen' : (setCsf csf nb ((lookupCsf csf v).getD 0 +
          calculate_cost m v nb)).length = csf.length :=
        setCsf_length_of_mem csf nb _ old hnb2
      have hndU := hpush (Or.inl hlen') rfl
      rcases hB nb old hnb2 with ⟨nold, hnold1, hnold2⟩
      have hltn : ns + k < nold := by
        have h2 : ((ns + k : ℕ) : ℚ) < ((nold : ℕ) : ℚ) := by
          rw [← hncn, ← hnold1]
          exact hlt
        exact_mod_cast h2
      refine ⟨hndU.1, hndU.2, ?_, ?_, ?_⟩
      · intro c w hw
        by_cases hc : c = nb
        · subst hc
          rw [lookup_setCsf_self] at hw
          injection hw with hw1
          refine ⟨ns + k, by rw [← hw1, hncn], ?_⟩
          rw [hlen']
          omega
        · rw [lookup_setCsf_other csf nb c _ hc] at hw
          rcases hB c w hw with ⟨n, hn1, hn2⟩
          refine ⟨n, hn1, ?_⟩
          rw [hlen']
          omega
      · -- the measure strictly decreases on an improving push
        have hS := csfS_setCsf_mem csf nb ((lookupCsf csf v).getD 0 +
          calculate_cost m v nb) old hnb2
        have holdn : old.num.toNat = nold := by
          rw [hnold1, Rat.num_natCast]
          exact Int.toNat_natCast _
        have hnewn : ((lookupCsf csf v).getD 0 +
            calculate_cost m v nb).num.toNat = ns + k := by
          rw [hncn, Rat.num_natCast]
          exact Int.toNat_natCast _
        rw [holdn, hnewn] at hS
        unfold phiCsf
        rw [hlen', List.length_append]
        simp only [List.length_cons, List.length_nil]
        omega
      · intro e he
        rcases List.mem_append.mp he with h2 | h2
        · exact Or.inl h2
        · rcases List.mem_singleton.mp h2 with rfl
          exact Or.inr ⟨hnb, rfl⟩
    · rw [relax_of_ge m goal v pv q csf nb old hnb2 hlt] at heq
      have hq' : q = q' := congrArg Prod.fst heq
      have hcsf' : csf = csf' := congrArg Prod.snd heq
      subst hq'
      subst hcsf'
      exact ⟨hnd, hU, hB, le_refl _, fun e he => Or.inl he⟩

/-! ## The A* neighbor fold: basic invariants and measure -/

theorem astar_fold_basic (m : Maze) (start goal v : Cell) (pv : List Cell) :
    ∀ (nbrs : List Cell) (q : List AEntry) (csf : List (Cell × ℚ)),
      (∀ nb ∈ nbrs, nb ∈ get_neighbors m v) →
      (csf.map Prod.fst).Nodup →
      (∀ k ∈ csf.map Prod.fst, k = start ∨ inBounds m k) →
      (∀ c w, lookupCsf csf c = some w → ∃ n : ℕ, w = (n : ℚ) ∧ n ≤ 4 * csf.length) →
      ∀ q' csf', nbrs.foldl (relax m goal v pv) (q, csf) = (q', csf') →
        (csf'.map Prod.fst).Nodup ∧
        (∀ k ∈ csf'.map Prod.fst, k = start ∨ inBounds m k) ∧
        (∀ c w, lookupCsf csf' c = some w → ∃ n : ℕ, w = (n : ℚ) ∧ n ≤ 4 * csf'.length) ∧
        (q'.length + 2 * phiCsf m csf' ≤ q.length + 2 * phiCsf m csf) ∧
        (∀ e ∈ q', e ∈ q ∨ (e.cell ∈ get_neighbors m v ∧ e.path = pv ++ [e.cell]))
  | [], q, csf, _, hnd, hU, hB, q', csf', heq => by
    rw [List.foldl_nil] at heq
    have hq' : q = q' := congrArg Prod.fst heq
    have hcsf' : csf = csf' := congrArg Prod.snd heq
    subst hq'
    subst hcsf'
    exact ⟨hnd, hU, hB, le_refl _, fun e he => Or.inl he⟩
  | nb :: rest, q, csf, hnbrs, hnd, hU, hB, q', csf', heq => by
    rw [List.foldl_cons] at heq
    have hmid : relax m goal v pv (q, csf) nb =
        ((relax m goal v pv (q, csf) nb).1, (relax m goal v pv (q, csf) nb).2) := rfl
    rcases relax_step_basic m start goal v pv q csf nb
      (hnbrs nb (List.mem_cons_self _ _)) hnd hU hB _ _ hmid with
      ⟨hnd1, hU1, hB1, hm1, he1⟩
    rw [hmid] at heq
    rcases astar_fold_basic m start goal v pv rest _ _
      (fun x hx => hnbrs x (List.mem_cons_of_mem _ hx)) hnd1 hU1 hB1 q' csf' heq with
      ⟨hnd2, hU2, hB2, hm2, he2⟩
    refine ⟨hnd2, hU2, hB2, by omega, ?_⟩
    intro e he
    rcases he2 e he with h2 | h2
    · exact he1 e h2
    · exact Or.inr h2

/-! ## Reduction lemmas for one A* iteration -/

theorem aStarAux_succ_none (m : Maze) (goal : Cell) (f : ℕ) (queue : List AEntry)
    (csf : List (Cell × ℚ)) (h : popMin queue = none) :
    aStarAux m goal (f + 1) queue csf = some Res.nopath := by
  rw [aStarAux_succ, h]

theorem aStarAux_succ_some (m : Maze) (goal : Cell) (f : ℕ) (queue : List AEntry)
    (csf : List (Cell × ℚ)) (e : AEntry) (rest : List AEntry)
    (h : popMin queue = some (e, rest)) :
    aStarAux m goal (f + 1) queue csf =
      if e.cell = goal then some (Res.found e.path ((lookupCsf csf e.cell).getD 0))
      else aStarAux m goal f
        ((get_neighbors m e.cell).foldl (relax m goal e.cell e.path) (rest, csf)).1
        ((get_neighbors m e.cell).foldl (relax m goal e.cell e.path) (rest, csf)).2 := by
  rw [aStarAux_succ, h]

/-! ## The A* basic master lemma: termination and path validity -/

theorem astar_master (m : Maze) (start goal : Cell) :
    ∀ (fuel : ℕ) (queue : List AEntry) (csf : List (Cell × ℚ)),
      (∀ e ∈ queue, e.path.head? = some start ∧ e.path.getLast? = some e.cell ∧
        List.Chain' (fun a b => b ∈ get_neighbors m a) e.path) →
      (csf.map Prod.fst).Nodup →
      (∀ k ∈ csf.map Prod.fst, k = start ∨ inBounds m k) →
      (∀ c w, lookupCsf csf c = some w → ∃ n : ℕ, w = (n : ℚ) ∧ n ≤ 4 * csf.length) →
      queue.length + 2 * phiCsf m csf + 1 ≤ fuel →
      ∃ r, aStarAux m goal fuel queue csf = some r ∧
        (∀ p c, r = Res.found p c → ValidPath m start goal p) := by
  intro fuel
  induction fuel with
  | zero =>
    intro queue csf _ _ _ _ hfuel
    omega
  | succ f ih =>
    intro queue csf hq hnd hU hB hfuel
    rcases hpop : popMin queue with _ | ⟨e, rest⟩
    · rw [aStarAux_succ_none m goal f queue csf hpop]
      exact ⟨Res.nopath, rfl, by intro p c h; cases h⟩
    · rw [aStarAux_succ_some m goal f queue csf e rest hpop]
      have hperm := popMin_perm hpop
      have hemem : e ∈ queue := hperm.mem_iff.mpr (List.mem_cons_self _ _)
      by_cases hg : e.cell = goal
      · rw [if_pos hg]
        refine ⟨Res.found e.path ((lookupCsf csf e.cell).getD 0), rfl, ?_⟩
        intro p c h
        injection h with h1 h2
        subst h1
        rcases hq e hemem with ⟨hh, hl, hc⟩
        exact ⟨hh, hg ▸ hl, hc⟩
      · rw [if_neg hg]
        have hmid : (get_neighbors m e.cell).foldl (relax m goal e.cell e.path)
            (rest, csf) =
            (((get_neighbors m e.cell).foldl (relax m goal e.cell e.path)
              (rest, csf)).1,
             ((get_neighbors m e.cell).foldl (relax m goal e.cell e.path)
              (rest, csf)).2) := rfl
        rcases astar_fold_basic m start goal e.cell e.path (get_neighbors m e.cell)
          rest csf (fun x hx => hx) hnd hU hB _ _ hmid with
          ⟨hnd1, hU1, hB1, hm1, he1⟩
        have hlenq : queue.length = rest.length + 1 := by
          have := hperm.length_eq
          simp at this
          omega
        have hrest : ∀ x ∈ rest, x ∈ queue := fun x hx =>
          hperm.mem_iff.mpr (List.mem_cons_of_mem _ hx)
        refine ih _ _ ?_ hnd1 hU1 hB1 ?_
        · intro e' he'
          rcases he1 e' he' with h2 | ⟨h2, h3⟩
          · exact hq e' (hrest e' h2)
          · rcases hq e hemem with ⟨hh, hl, hc⟩
            have hpne : e.path ≠ [] := by
              intro hnil
              rw [hnil] at hh
              cases hh
            refine ⟨?_, ?_, ?_⟩
            · rw [h3, head?_append_left _ _ hpne]
              exact hh
            · rw [h3, List.getLast?_concat]
            · rw [h3]
              exact chain_concat_of _ e.path e.cell e'.cell hc hl h2
        · omega

/-! ## One A* relaxation step: optimality invariants -/

theorem relax_step_opt (m : Maze) (start goal v : Cell) (pv : List Cell)
    (q : List AEntry) (csf : List (Cell × ℚ)) (nb : Cell)
    (hnb : nb ∈ get_neighbors m v)
    (hAK : ∀ u val, lookupCsf csf u = some val → u ≠ goal → u ≠ v →
      (∃ e ∈ q, e.cell = u ∧ e.pri ≤ val + heuristic goal u) ∨
      (∀ w ∈ get_neighbors m u, ∃ wv, lookupCsf csf w = some wv ∧
        wv ≤ val + calculate_cost m u w))
    (hAL : ∀ val, lookupCsf csf goal = some val →
      ∃ e ∈ q, e.cell = goal ∧ e.pri ≤ val)
    (hAQ : ∀ e ∈ q, e.cell = goal →
      ∃ val, lookupCsf csf goal = some val ∧ val ≤ e.pri)
    (hAC : ∀ e ∈ q, ∃ val, lookupCsf csf e.cell = some val)
    (hAS : lookupCsf csf start = some 0)
    (hAN : ∀ u val, lookupCsf csf u = some val → 0 ≤ val)
    (vv : ℚ) (hvv : lookupCsf csf v = some vv) :
    ∀ q' csf', relax m goal v pv (q, csf) nb = (q', csf') →
      (∀ e ∈ q, e ∈ q') ∧
      (∀ w wv, lookupCsf csf w = some wv →
        ∃ wv', lookupCsf csf' w = some wv' ∧ wv' ≤ wv) ∧
      (lookupCsf csf' v = lookupCsf csf v) ∧
      (∀ u val, lookupCsf csf' u = some val → u ≠ goal → u ≠ v →
        (∃ e ∈ q', e.cell = u ∧ e.pri ≤ val + heuristic goal u) ∨
        (∀ w ∈ get_neighbors m u, ∃ wv, lookupCsf csf' w = some wv ∧
          wv ≤ val + calculate_cost m u w)) ∧
      (∃ wv vv2, lookupCsf csf' v = some vv2 ∧ lookupCsf csf' nb = some wv ∧
        wv ≤ vv2 + calculate_cost m v nb) ∧
      (∀ val, lookupCsf csf' goal = some val →
        ∃ e ∈ q', e.cell = goal ∧ e.pri ≤ val) ∧
      (∀ e ∈ q', e.cell = goal →
        ∃ val, lookupCsf csf' goal = some val ∧ val ≤ e.pri) ∧
      (∀ e ∈ q', ∃ val, lookupCsf csf' e.cell = some val) ∧
      (lookupCsf csf' start = some 0) ∧
      (∀ u val, lookupCsf csf' u = some val → 0 ≤ val) := by
  intro q' csf' heq
  have hnbv : nb ≠ v := nbr_ne_self hnb
  have hscv : (lookupCsf csf v).getD 0 = vv := by rw [hvv]; rfl
  have hvpos : 0 ≤ vv := hAN v vv hvv
  have hcost1 : 1 ≤ calculate_cost m v nb := cost_ge_one m v nb
  have hncpos : 0 < (lookupCsf csf v).getD 0 + calculate_cost m v nb := by
    rw [hscv]
    linarith
  -- the two branches that push a new entry share all their reasoning;
  -- hmono_nb records that the pushed value improves on any recorded one
  have hmain : ∀ (_ : ∀ wv, lookupCsf csf nb = some wv →
        (lookupCsf csf v).getD 0 + calculate_cost m v nb ≤ wv)
      (_ : nb ≠ start),
      q' = q ++ [⟨(lookupCsf csf v).getD 0 + calculate_cost m v nb +
        heuristic goal nb, nb, pv ++ [nb]⟩] →
      csf' = setCsf csf nb ((lookupCsf csf v).getD 0 + calculate_cost m v nb) →
      (∀ e ∈ q, e ∈ q') ∧
      (∀ w wv, lookupCsf csf w = some wv →
        ∃ wv', lookupCsf csf' w = some wv' ∧ wv' ≤ wv) ∧
      (lookupCsf csf' v = lookupCsf csf v) ∧
      (∀ u val, lookupCsf csf' u = some val → u ≠ goal → u ≠ v →
        (∃ e ∈ q', e.cell = u ∧ e.pri ≤ val + heuristic goal u) ∨
        (∀ w ∈ get_neighbors m u, ∃ wv, lookupCsf csf' w = some wv ∧
          wv ≤ val + calculate_cost m u w)) ∧
      (∃ wv vv2, lookupCsf csf' v = some vv2 ∧ lookupCsf csf' nb = some wv ∧
        wv ≤ vv2 + calculate_cost m v nb) ∧
      (∀ val, lookupCsf csf' goal = some val →
        ∃ e ∈ q', e.cell = goal ∧ e.pri ≤ val) ∧
      (∀ e ∈ q', e.cell = goal →
        ∃ val, lookupCsf csf' goal = some val ∧ val ≤ e.pri) ∧
      (∀ e ∈ q', ∃ val, lookupCsf csf' e.cell = some val) ∧
      (lookupCsf csf' start = some 0) ∧
      (∀ u val, lookupCsf csf' u = some val → 0 ≤ val) := by
    intro hmono hnbs hq' hcsf'
    subst hq'
    subst hcsf'
    have hself : lookupCsf (setCsf csf nb ((lookupCsf csf v).getD 0 +
        calculate_cost m v nb)) nb =
        some ((lookupCsf csf v).getD 0 + calculate_cost m v nb) :=
      lookup_setCsf_self csf nb _
    have hother : ∀ w, w ≠ nb →
        lookupCsf (setCsf csf nb ((lookupCsf csf v).getD 0 +
          calculate_cost m v nb)) w = lookupCsf csf w :=
      fun w hw => lookup_setCsf_other csf nb w _ hw
    have hvne : v ≠ nb := fun h => hnbv h.symm
    have hdec : ∀ w wv, lookupCsf csf w = some wv →
        ∃ wv', lookupCsf (setCsf csf nb ((lookupCsf csf v).getD 0 +
          calculate_cost m v nb)) w = some wv' ∧ wv' ≤ wv := by
      intro w wv hwv
      by_cases hw : w = nb
      · subst hw
        exact ⟨_, hself, hmono wv hwv⟩
      · rw [hother w hw, hwv]
        exact ⟨wv, rfl, le_refl wv⟩
    refine ⟨fun e he => List.mem_append_left _ he, hdec, hother v hvne,
      ?_, ?_, ?_, ?_, ?_, ?_, ?_⟩
    · -- AK restricted away from v
      intro u val hval hug huv
      by_cases hu : u = nb
      · rw [hu, hself] at hval
        injection hval with hval1
        left
        refine ⟨⟨(lookupCsf csf v).getD 0 + calculate_cost m v nb +
          heuristic goal nb, nb, pv ++ [nb]⟩,
          List.mem_append_right _ (List.mem_singleton.mpr rfl), hu.symm, ?_⟩
        show (lookupCsf csf v).getD 0 + calculate_cost m v nb +
          heuristic goal nb ≤ val + heuristic goal u
        rw [hu, ← hval1]
      · rw [hother u hu] at hval
        rcases hAK u val hval hug huv with ⟨e0, he0, hc0, hp0⟩ | hproc
        · exact Or.inl ⟨e0, List.mem_append_left _ he0, hc0, hp0⟩
        · right
          intro w hw
          rcases hproc w hw with ⟨wv, hwv, hle⟩
          rcases hdec w wv hwv with ⟨wv', h', hle'⟩
          exact ⟨wv', h', le_trans hle' hle⟩
    · -- nb is processed
      refine ⟨(lookupCsf csf v).getD 0 + calculate_cost m v nb, vv, ?_, hself, ?_⟩
      · rw [hother v hvne]
        exact hvv
      · rw [hscv]
    · -- AL
      intro val hval
      by_cases hgnb : goal = nb
      · rw [hgnb, hself] at hval
        injection hval with hval1
        refine ⟨⟨(lookupCsf csf v).getD 0 + calculate_cost m v nb +
          heuristic goal nb, nb, pv ++ [nb]⟩,
          List.mem_append_right _ (List.mem_singleton.mpr rfl), hgnb.symm, ?_⟩
        show (lookupCsf csf v).getD 0 + calculate_cost m v nb +
          heuristic goal nb ≤ val
        rw [hgnb, heuristic_self, add_zero]
        exact le_of_eq hval1
      · rw [hother goal hgnb] at hval
        rcases hAL val hval with ⟨e0, he0, hc0, hp0⟩
        exact ⟨e0, List.mem_append_left _ he0, hc0, hp0⟩
    · -- AQ
      intro e' he' hcg
      rcases List.mem_append.mp he' with h2 | h2
      · rcases hAQ e' h2 hcg with ⟨val, hval, hle⟩
        rcases hdec goal val hval with ⟨val', h', hle'⟩
        exact ⟨val', h', le_trans hle' hle⟩
      · rcases List.mem_singleton.mp h2 with rfl
        have hcg2 : nb = goal := hcg
        refine ⟨(lookupCsf csf v).getD 0 + calculate_cost m v nb, ?_, ?_⟩
        · rw [← hcg2]
          exact hself
        · show (lookupCsf csf v).getD 0 + calculate_cost m v nb ≤
            (lookupCsf csf v).getD 0 + calculate_cost m v nb + heuristic goal nb
          have := heuristic_nonneg goal nb
          linarith
    · -- AC
      intro e' he'
      rcases List.mem_append.mp he' with h2 | h2
      · rcases hAC e' h2 with ⟨val, hval⟩
        rcases hdec e'.cell val hval with ⟨val', h', _⟩
        exact ⟨val', h'⟩
      · rcases List.mem_singleton.mp h2 with rfl
        exact ⟨_, hself⟩
    · -- AS
      rw [hother start (fun h => hnbs h.symm)]
      exact hAS
    · -- AN
      intro u val hval
      by_cases hu : u = nb
      · subst hu
        rw [hself] at hval
        injection hval with hval1
        rw [← hval1, hscv]
        linarith
      · rw [hother u hu] at hval
        exact hAN u val hval
  cases hnb2 : lookupCsf csf nb with
  | none =>
    rw [relax_of_none m goal v pv q csf nb hnb2] at heq
    have hq' : q' = q ++ [⟨(lookupCsf csf v).getD 0 + calculate_cost m v nb +
        heuristic goal nb, nb, pv ++ [nb]⟩] := (congrArg Prod.fst heq).symm
    have hcsf' : csf' = setCsf csf nb ((lookupCsf csf v).getD 0 +
        calculate_cost m v nb) := (congrArg Prod.snd heq).symm
    have hnbs : nb ≠ start := by
      intro he
      rw [he, hAS] at hnb2
      cases hnb2
    exact hmain (fun wv hwv => by rw [hnb2] at hwv; cases hwv) hnbs hq' hcsf'
  | some old =>
    by_cases hlt : (lookupCsf csf v).getD 0 + calculate_cost m v nb < old
    · rw [relax_of_lt m goal v pv q csf nb old hnb2 hlt] at heq
      have hq' : q' = q ++ [⟨(lookupCsf csf v).getD 0 + calculate_cost m v nb +
          heuristic goal nb, nb, pv ++ [nb]⟩] := (congrArg Prod.fst heq).symm
      have hcsf' : csf' = setCsf csf nb ((lookupCsf csf v).getD 0 +
          calculate_cost m v nb) := (congrArg Prod.snd heq).symm
      have hnbs : nb ≠ start := by
        intro he
        rw [he, hAS] at hnb2
        injection hnb2 with h0
        rw [← h0] at hlt
        linarith
      refine hmain (fun wv hwv => ?_) hnbs hq' hcsf'
      rw [hnb2] at hwv
      injection hwv with h1
      rw [← h1]
      exact le_of_lt hlt
    · rw [relax_of_ge m goal v pv q csf nb old hnb2 hlt] at heq
      have hq' : q = q' := congrArg Prod.fst heq
      have hcsf' : csf = csf' := congrArg Prod.snd heq
      subst hq'
      subst hcsf'
      refine ⟨fun e he => he, fun w wv hwv => ⟨wv, hwv, le_refl wv⟩, rfl,
        hAK, ?_, hAL, hAQ, hAC, hAS, hAN⟩
      refine ⟨old, vv, hvv, hnb2, ?_⟩
      rw [← hscv]
      exact le_of_not_lt hlt

/-! ## The A* neighbor fold: optimality invariants -/

theorem astar_fold_opt (m : Maze) (start goal v : Cell) (pv : List Cell) :
    ∀ (nbrs : List Cell) (q : List AEntry) (csf : List (Cell × ℚ)),
      (∀ nb ∈ nbrs, nb ∈ get_neighbors m v) →
      (∀ u val, lookupCsf csf u = some val → u ≠ goal → u ≠ v →
        (∃ e ∈ q, e.cell = u ∧ e.pri ≤ val + heuristic goal u) ∨
        (∀ w ∈ get_neighbors m u, ∃ wv, lookupCsf csf w = some wv ∧
          wv ≤ val + calculate_cost m u w)) →
      (∀ val, lookupCsf csf goal = some val →
        ∃ e ∈ q, e.cell = goal ∧ e.pri ≤ val) →
      (∀ e ∈ q, e.cell = goal →
        ∃ val, lookupCsf csf goal = some val ∧ val ≤ e.pri) →
      (∀ e ∈ q, ∃ val, lookupCsf csf e.cell = some val) →
      lookupCsf csf start = some 0 →
      (∀ u val, lookupCsf csf u = some val → 0 ≤ val) →
      ∀ vv, lookupCsf csf v = some vv →
      ∀ q' csf', nbrs.foldl (relax m goal v pv) (q, csf) = (q', csf') →
        (∀ e ∈ q, e ∈ q') ∧
        (∀ w wv, lookupCsf csf w = some wv →
          ∃ wv', lookupCsf csf' w = some wv' ∧ wv' ≤ wv) ∧
        (lookupCsf csf' v = lookupCsf csf v) ∧
        (∀ u val, lookupCsf csf' u = some val → u ≠ goal → u ≠ v →
          (∃ e ∈ q', e.cell = u ∧ e.pri ≤ val + heuristic goal u) ∨
          (∀ w ∈ get_neighbors m u, ∃ wv, lookupCsf csf' w = some wv ∧
            wv ≤ val + calculate_cost m u w)) ∧
        (∀ w ∈ nbrs, ∃ wv vv2, lookupCsf csf' v = some vv2 ∧
          lookupCsf csf' w = some wv ∧ wv ≤ vv2 + calculate_cost m v w) ∧
        (∀ val, lookupCsf csf' goal = some val →
          ∃ e ∈ q', e.cell = goal ∧ e.pri ≤ val) ∧
        (∀ e ∈ q', e.cell = goal →
          ∃ val, lookupCsf csf' goal = some val ∧ val ≤ e.pri) ∧
        (∀ e ∈ q', ∃ val, lookupCsf csf' e.cell = some val) ∧
        (lookupCsf csf' start = some 0) ∧
        (∀ u val, lookupCsf csf' u = some val → 0 ≤ val)
  | [], q, csf, _, hAK, hAL, hAQ, hAC, hAS, hAN, vv, hvv, q', csf', heq => by
    rw [List.foldl_nil] at heq
    have hq' : q = q' := congrArg Prod.fst heq
    have hcsf' : csf = csf' := congrArg Prod.snd heq
    subst hq'
    subst hcsf'
    exact ⟨fun e he => he, fun w wv hwv => ⟨wv, hwv, le_refl wv⟩, rfl, hAK,
      fun w hw => absurd hw (List.not_mem_nil w), hAL, hAQ, hAC, hAS, hAN⟩
  | nb :: rest, q, csf, hnbrs, hAK, hAL, hAQ, hAC, hAS, hAN, vv, hvv, q', csf', heq => by
    rw [List.foldl_cons] at heq
    have hmid : relax m goal v pv (q, csf) nb =
        ((relax m goal v pv (q, csf) nb).1, (relax m goal v pv (q, csf) nb).2) := rfl
    rcases relax_step_opt m start goal v pv q csf nb
      (hnbrs nb (List.mem_cons_self _ _)) hAK hAL hAQ hAC hAS hAN vv hvv _ _ hmid with
      ⟨s1, s2, s3, s4, s5, s6, s7, s8, s9, s10⟩
    rw [hmid] at heq
    have hvv1 : lookupCsf (relax m goal v pv (q, csf) nb).2 v = some vv := by
      rw [s3]
      exact hvv
    rcases astar_fold_opt m start goal v pv rest _ _
      (fun x hx => hnbrs x (List.mem_cons_of_mem _ hx)) s4 s6 s7 s8 s9 s10
      vv hvv1 q' csf' heq with
      ⟨f1, f2, f3, f4, f5, f6, f7, f8, f9, f10⟩
    refine ⟨fun e he => f1 e (s1 e he), ?_, by rw [f3]; exact s3, f4, ?_,
      f6, f7, f8, f9, f10⟩
    · intro w wv2 hwv2
      rcases s2 w wv2 hwv2 with ⟨wv1, h1, hle1⟩
      rcases f2 w wv1 h1 with ⟨wv', h', hle'⟩
      exact ⟨wv', h', le_trans hle' hle1⟩
    · intro w hw
      rcases List.mem_cons.mp hw with rfl | hw2
      · rcases s5 with ⟨wv1, vv2, hv2, hw2, hle2⟩
        rcases f2 w wv1 hw2 with ⟨wv', h', hle'⟩
        have hvv2 : vv2 = vv := by
          rw [s3, hvv] at hv2
          injection hv2 with h3
          exact h3.symm
        refine ⟨wv', vv, ?_, h', ?_⟩
        · rw [f3]
          exact hvv1
        · rw [← hvv2]
          exact le_trans hle' hle2
      · exact f5 w hw2

/-! ## The A* relative-optimality walk -/

/-- While the search is running, some entry of the queue has priority at
most the cost of any fixed valid path suffix to the goal, provided the
head of the suffix has a recorded cost below the accumulated prefix
cost.  This is the heart of the admissibility argument. -/
theorem astar_walk (m : Maze) (goal : Cell) (queue : List AEntry)
    (csf : List (Cell × ℚ))
    (hAK : ∀ u val, lookupCsf csf u = some val → u ≠ goal →
      (∃ e ∈ queue, e.cell = u ∧ e.pri ≤ val + heuristic goal u) ∨
      (∀ w ∈ get_neighbors m u, ∃ wv, lookupCsf csf w = some wv ∧
        wv ≤ val + calculate_cost m u w))
    (hAL : ∀ val, lookupCsf csf goal = some val →
      ∃ e ∈ queue, e.cell = goal ∧ e.pri ≤ val) :
    ∀ (rest : List Cell) (c : Cell) (v acc : ℚ),
      lookupCsf csf c = some v → v ≤ acc →
      List.Chain' (fun a b => b ∈ get_neighbors m a) (c :: rest) →
      (c :: rest).getLast? = some goal →
      ∃ e ∈ queue, e.pri ≤ acc + pathCost m (c :: rest)
  | [], c, v, acc, hv, hvacc, _, hlast => by
    simp at hlast
    subst hlast
    rcases hAL v hv with ⟨e, he, _, hp⟩
    refine ⟨e, he, ?_⟩
    have hpc : pathCost m [c] = 0 := rfl
    rw [hpc, add_zero]
    linarith
  | b :: rest, c, v, acc, hv, hvacc, hch, hlast => by
    have hpc : pathCost m (c :: b :: rest) =
        calculate_cost m c b + pathCost m (b :: rest) := rfl
    by_cases hcg : c = goal
    · subst hcg
      rcases hAL v hv with ⟨e, he, _, hp⟩
      have hnn : 0 ≤ pathCost m (c :: b :: rest) := pathCost_nonneg m _
      exact ⟨e, he, by linarith⟩
    · have hch2 := hch
      rw [List.chain'_cons] at hch2
      rcases hAK c v hv hcg with ⟨e, he, _, hpri⟩ | hproc
      · have hadm := heuristic_le_pathCost m goal (b :: rest) c hch hlast
        exact ⟨e, he, by linarith⟩
      · rcases hproc b hch2.1 with ⟨bv, hbv, hble⟩
        have hrec := astar_walk m goal queue csf hAK hAL rest b bv
          (acc + calculate_cost m c b) hbv (by linarith) hch2.2
          (by rwa [List.getLast?_cons_cons] at hlast)
        rcases hrec with ⟨e, he, hp⟩
        refine ⟨e, he, ?_⟩
        rw [hpc]
        linarith

/-! ## The A* relative-optimality master lemma -/

theorem astar_opt_master (m : Maze) (start goal : Cell) (P : List Cell)
    (hP : ValidPath m start goal P) :
    ∀ (fuel : ℕ) (queue : List AEntry) (csf : List (Cell × ℚ)),
      (∀ u val, lookupCsf csf u = some val → u ≠ goal →
        (∃ e ∈ queue, e.cell = u ∧ e.pri ≤ val + heuristic goal u) ∨
        (∀ w ∈ get_neighbors m u, ∃ wv, lookupCsf csf w = some wv ∧
          wv ≤ val + calculate_cost m u w)) →
      (∀ val, lookupCsf csf goal = some val →
        ∃ e ∈ queue, e.cell = goal ∧ e.pri ≤ val) →
      (∀ e ∈ queue, e.cell = goal →
        ∃ val, lookupCsf csf goal = some val ∧ val ≤ e.pri) →
      (∀ e ∈ queue, ∃ val, lookupCsf csf e.cell = some val) →
      lookupCsf csf start = some 0 →
      (∀ u val, lookupCsf csf u = some val → 0 ≤ val) →
      (aStarAux m goal fuel queue csf = some Res.nopath → False) ∧
      (∀ p c, aStarAux m goal fuel queue csf = some (Res.found p c) →
        c ≤ pathCost m P) := by
  have hPx : ∃ tail, P = start :: tail ∧
      List.Chain' (fun a b => b ∈ get_neighbors m a) (start :: tail) ∧
      (start :: tail).getLast? = some goal := by
    rcases hP with ⟨hh, hl, hc⟩
    cases P with
    | nil => cases hh
    | cons c0 tail =>
      have hc0 : c0 = start := by injection hh
      subst hc0
      exact ⟨tail, rfl, hc, hl⟩
  rcases hPx with ⟨tail, hPeq, hPch, hPlast⟩
  intro fuel
  induction fuel with
  | zero =>
    intro queue csf _ _ _ _ _ _
    constructor
    · intro h
      rw [aStarAux_zero] at h
      cases h
    · intro p c h
      rw [aStarAux_zero] at h
      cases h
  | succ f ih =>
    intro queue csf hAK hAL hAQ hAC hAS hAN
    rcases hpop : popMin queue with _ | ⟨e, rest⟩
    · have hempty : queue = [] := popMin_eq_none hpop
      have hwalk := astar_walk m goal queue csf hAK hAL tail start 0 0 hAS
        (le_refl 0) hPch hPlast
      rcases hwalk with ⟨ew, hew, _⟩
      rw [hempty] at hew
      exact absurd hew (List.not_mem_nil ew)
    · have hperm := popMin_perm hpop
      have hemem : e ∈ queue := hperm.mem_iff.mpr (List.mem_cons_self _ _)
      rw [aStarAux_succ_some m goal f queue csf e rest hpop]
      by_cases hg : e.cell = goal
      · rw [if_pos hg]
        constructor
        · intro h
          injection h with h1
          cases h1
        · intro p c h
          injection h with h1
          injection h1 with hp1 hc1
          rcases hAQ e hemem hg with ⟨val, hval, hvle⟩
          have hc2 : (lookupCsf csf e.cell).getD 0 = val := by
            rw [hg, hval]
            rfl
          have hwalk := astar_walk m goal queue csf hAK hAL tail start 0 0 hAS
            (le_refl 0) hPch hPlast
          rcases hwalk with ⟨ew, hew, hewp⟩
          have hmin := popMin_min hpop ew hew
          rw [hc2] at hc1
          rw [← hPeq] at hewp
          have hz : (0 : ℚ) + pathCost m P = pathCost m P := by ring
          rw [hz] at hewp
          rw [← hc1]
          linarith
      · rw [if_neg hg]
        have hmemr : ∀ x ∈ queue, x = e ∨ x ∈ rest := by
          intro x hx
          exact List.mem_cons.mp (hperm.mem_iff.mp hx)
        have hrsub : ∀ x ∈ rest, x ∈ queue := fun x hx =>
          hperm.mem_iff.mpr (List.mem_cons_of_mem _ hx)
        have hAKr : ∀ u val, lookupCsf csf u = some val → u ≠ goal → u ≠ e.cell →
            (∃ e2 ∈ rest, e2.cell = u ∧ e2.pri ≤ val + heuristic goal u) ∨
            (∀ w ∈ get_neighbors m u, ∃ wv, lookupCsf csf w = some wv ∧
              wv ≤ val + calculate_cost m u w) := by
          intro u val hval hug huv
          rcases hAK u val hval hug with ⟨e2, he2, hc2, hp2⟩ | hproc
          · rcases hmemr e2 he2 with rfl | he3
            · exact absurd hc2.symm huv
            · exact Or.inl ⟨e2, he3, hc2, hp2⟩
          · exact Or.inr hproc
        have hALr : ∀ val, lookupCsf csf goal = some val →
            ∃ e2 ∈ rest, e2.cell = goal ∧ e2.pri ≤ val := by
          intro val hval
          rcases hAL val hval with ⟨e2, he2, hc2, hp2⟩
          rcases hmemr e2 he2 with rfl | he3
          · exact absurd hc2 hg
          · exact ⟨e2, he3, hc2, hp2⟩
        have hAQr : ∀ e2 ∈ rest, e2.cell = goal →
            ∃ val, lookupCsf csf goal = some val ∧ val ≤ e2.pri :=
          fun e2 he2 => hAQ e2 (hrsub e2 he2)
        have hACr : ∀ e2 ∈ rest, ∃ val, lookupCsf csf e2.cell = some val :=
          fun e2 he2 => hAC e2 (hrsub e2 he2)
        rcases hAC e hemem with ⟨vv, hvv⟩
        have hmid : (get_neighbors m e.cell).foldl (relax m goal e.cell e.path)
            (rest, csf) =
            (((get_neighbors m e.cell).foldl (relax m goal e.cell e.path)
              (rest, csf)).1,
             ((get_neighbors m e.cell).foldl (relax m goal e.cell e.path)
              (rest, csf)).2) := rfl
        rcases astar_fold_opt m start goal e.cell e.path (get_neighbors m e.cell)
          rest csf (fun x hx => hx) hAKr hALr hAQr hACr hAS hAN vv hvv _ _ hmid with
          ⟨f1, f2, f3, f4, f5, f6, f7, f8, f9, f10⟩
        have hAK2 : ∀ u val, lookupCsf ((get_neighbors m e.cell).foldl
              (relax m goal e.cell e.path) (rest, csf)).2 u = some val → u ≠ goal →
            (∃ e2 ∈ ((get_neighbors m e.cell).foldl
              (relax m goal e.cell e.path) (rest, csf)).1, e2.cell = u ∧
              e2.pri ≤ val + heuristic goal u) ∨
            (∀ w ∈ get_neighbors m u, ∃ wv, lookupCsf ((get_neighbors m e.cell).foldl
              (relax m goal e.cell e.path) (rest, csf)).2 w = some wv ∧
              wv ≤ val + calculate_cost m u w) := by
          intro u val hval hug
          by_cases huv : u = e.cell
          · right
            intro w hw
            subst huv
            rcases f5 w hw with ⟨wv, vv2, hv2, hw2, hle2⟩
            have hvv2 : vv2 = val := by
              rw [hval] at hv2
              injection hv2 with h3
              exact h3.symm
            exact ⟨wv, hw2, hvv2 ▸ hle2⟩
          · exact f4 u val hval hug huv
        exact ih _ _ hAK2 f6 f7 f8 f9 f10

/-! ## Top-level runs of the three searches -/

/-- `dfs` from its initial state: it always returns, a found result is a
valid duplicate-free path whose reported cost is its length, and a
no-path result certifies unreachability. -/
theorem dfs_run (m : Maze) (start goal : Cell) :
    ∃ r, dfs m start goal = some r ∧
      (∀ p c, r = Res.found p c →
        ValidPath m start goal p ∧ c = p.length ∧ p.Nodup) ∧
      (r = Res.nopath → ¬ Reachable m start goal) := by
  refine dfs_master m start goal (dfsFuel m) [(start, [start])] [] ?_ ?_ ?_ ?_ ?_ ?_ ?_
  · intro v p hmem
    rcases List.mem_singleton.mp hmem with heq
    have hv : start = v := congrArg Prod.fst heq.symm
    have hp : [start] = p := congrArg Prod.snd heq.symm
    subst hv
    subst hp
    exact ⟨[], rfl, List.nodup_nil, by simp, rfl, List.chain'_singleton _⟩
  · exact List.not_mem_nil goal
  · exact Or.inr ⟨[start], List.mem_singleton.mpr rfl⟩
  · intro v hv
    exact absurd hv (List.not_mem_nil v)
  · exact List.nodup_nil
  · intro v hv
    exact absurd hv (List.not_mem_nil v)
  · show 1 + 5 * (numU m - 0) + 1 ≤ dfsFuel m
    unfold dfsFuel
    omega

/-- `bfs` from its initial state, with the same guarantees as `dfs_run`. -/
theorem bfs_run (m : Maze) (start goal : Cell) :
    ∃ r, bfs m start goal = some r ∧
      (∀ p c, r = Res.found p c →
        ValidPath m start goal p ∧ c = p.length ∧ p.Nodup) ∧
      (r = Res.nopath → ¬ Reachable m start goal) := by
  refine bfs_master m start goal (dfsFuel m) [(start, [start])] [] ?_ ?_ ?_ ?_ ?_ ?_ ?_
  · intro v p hmem
    rcases List.mem_singleton.mp hmem with heq
    have hv : start = v := congrArg Prod.fst heq.symm
    have hp : [start] = p := congrArg Prod.snd heq.symm
    subst hv
    subst hp
    exact ⟨[], rfl, List.nodup_nil, by simp, rfl, List.chain'_singleton _⟩
  · exact List.not_mem_nil goal
  · exact Or.inr ⟨[start], List.mem_singleton.mpr rfl⟩
  · intro v hv
    exact absurd hv (List.not_mem_nil v)
  · exact List.nodup_nil
  · intro v hv
    exact absurd hv (List.not_mem_nil v)
  · show 1 + 5 * (numU m - 0) + 1 ≤ dfsFuel m
    unfold dfsFuel
    omega

theorem lookup_init (start : Cell) (u : Cell) (val : ℚ)
    (h : lookupCsf [(start, 0)] u = some val) : start = u ∧ val = 0 := by
  simp only [lookupCsf] at h
  by_cases hsu : start = u
  · rw [if_pos hsu] at h
    injection h with h1
    exact ⟨hsu, h1.symm⟩
  · rw [if_neg hsu] at h
    cases h

/-- `a_star` from its initial state: it always returns (within the
computed fuel), and a found result is a valid path. -/
theorem astar_run (m : Maze) (start goal : Cell) :
    ∃ r, a_star m start goal = some r ∧
      (∀ p c, r = Res.found p c → ValidPath m start goal p) := by
  refine astar_master m start goal (aStarFuel m) [⟨0, start, [start]⟩]
    [(start, 0)] ?_ ?_ ?_ ?_ ?_
  · intro e he
    rcases List.mem_singleton.mp he with rfl
    exact ⟨rfl, rfl, List.chain'_singleton _⟩
  · simp
  · intro k hk
    simp at hk
    exact Or.inl hk
  · intro c w hw
    rcases lookup_init start c w hw with ⟨_, rfl⟩
    exact ⟨0, by norm_num, by omega⟩
  · have hS : csfS [(start, (0 : ℚ))] = 0 := rfl
    have h1 : (numU m - 1) * (4 * numU m + 1) ≤ numU m * (4 * numU m + 1) :=
      Nat.mul_le_mul_right _ (by omega)
    have h2 : 2 * numU m * (4 * numU m + 1) =
        2 * (numU m * (4 * numU m + 1)) := by ring
    show 1 + 2 * phiCsf m [(start, 0)] + 1 ≤ aStarFuel m
    unfold phiCsf aStarFuel
    rw [hS, h2]
    simp only [List.length_cons, List.length_nil, Nat.zero_add]
    omega

/-- `a_star` from its initial state, relative to any fixed valid path
`P`: it cannot exhaust its queue, and a found cost is at most the cost
of `P`. -/
theorem astar_opt_run (m : Maze) (start goal : Cell) (P : List Cell)
    (hP : ValidPath m start goal P) :
    (a_star m start goal = some Res.nopath → False) ∧
    (∀ p c, a_star m start goal = some (Res.found p c) → c ≤ pathCost m P) := by
  refine astar_opt_master m start goal P hP (aStarFuel m) [⟨0, start, [start]⟩]
    [(start, 0)] ?_ ?_ ?_ ?_ ?_ ?_
  · intro u val hval hug
    rcases lookup_init start u val hval with ⟨hsu, rfl⟩
    left
    refine ⟨⟨0, start, [start]⟩, List.mem_singleton.mpr rfl, hsu, ?_⟩
    have := heuristic_nonneg goal u
    show (0 : ℚ) ≤ 0 + heuristic goal u
    linarith
  · intro val hval
    rcases lookup_init start goal val hval with ⟨hsg, rfl⟩
    exact ⟨⟨0, start, [start]⟩, List.mem_singleton.mpr rfl, hsg, le_refl 0⟩
  · intro e he hcg
    rcases List.mem_singleton.mp he with rfl
    have hsg : start = goal := hcg
    refine ⟨0, ?_, le_refl 0⟩
    rw [← hsg]
    simp [lookupCsf]
  · intro e he
    rcases List.mem_singleton.mp he with rfl
    exact ⟨0, by simp [lookupCsf]⟩
  · simp [lookupCsf]
  · intro u val hval
    rcases lookup_init start u val hval with ⟨_, rfl⟩
    exact le_refl 0

/-- The last element of a nonempty list, by position. -/
theorem get_last_of_getLast? {α : Type} : ∀ (q : List α) (g : α),
    q.getLast? = some g → ∀ hl : 0 < q.length,
    q.get ⟨q.length - 1, by omega⟩ = g
  | [], g, h, hl => by cases h
  | [x], g, h, _ => Option.some.inj h
  | x :: y :: rest, g, h, _ => by
    rw [List.getLast?_cons_cons] at h
    have ih := get_last_of_getLast? (y :: rest) g h (by simp)
    show (x :: y :: rest).get ⟨rest.length + 1, by simp⟩ = g
    rw [List.get_cons_succ]
    exact ih

/-- Convert a `ValidPath` into its indexed form (endpoints and step
relation by position). -/
theorem validPath_index (m : Maze) (s g : Cell) (q : List Cell)
    (h : ValidPath m s g q) :
    ∃ hl : 0 < q.length, q.get ⟨0, hl⟩ = s ∧
      q.get ⟨q.length - 1, by omega⟩ = g ∧
      ∀ i (hi : i + 1 < q.length),
        q.get ⟨i + 1, hi⟩ ∈ get_neighbors m (q.get ⟨i, by omega⟩) := by
  rcases h with ⟨hh, hl, hc⟩
  have hne : q ≠ [] := by
    intro he
    rw [he] at hh
    cases hh
  have hlen : 0 < q.length := List.length_pos.mpr hne
  refine ⟨hlen, ?_, get_last_of_getLast? q g hl hlen, ?_⟩
  · cases q with
    | nil => exact absurd rfl hne
    | cons c0 tail => exact Option.some.inj hh
  · intro i hi
    have h2 := List.chain'_iff_get.mp hc i (by omega)
    exact h2

/-! ## C7: characterization of `get_neighbors` -/

/-- C7: `get_neighbors(maze, (x, y))` returns exactly those of the four
cells (x-1,y), (x+1,y), (x,y-1), (x,y+1) that are in bounds and whose
label is not 'w', in exactly that order (up, down, left, right); being a
pure function, two calls with the same arguments return the identical
ordered sequence. -/
theorem get_neighbors_exactly_filtered (m : Maze) (x y : ℤ) :
    get_neighbors m (x, y) =
      ([((x - 1 : ℤ), y), (x + 1, y), (x, y - 1), (x, y + 1)] : List Cell).filter
        (fun c => decide (specNeighborOk m c)) ∧
    (∀ c : Cell, c ∈ get_neighbors m (x, y) ↔
      c ∈ ([((x - 1 : ℤ), y), (x + 1, y), (x, y - 1), (x, y + 1)] : List Cell) ∧
        inBounds m c ∧ labelAt m c ≠ 'w') ∧
    get_neighbors m (x, y) = get_neighbors m (x, y) := by
  refine ⟨?_, fun c => mem_get_neighbors, rfl⟩
  unfold get_neighbors
  refine List.filter_congr ?_
  intro c _
  rw [decide_eq_decide]
  exact Iff.symm (Iff.of_eq (specNeighborOk.eq_def m c))

/-! ## C8: characterization of `calculate_cost` -/

/-- C8: for in-bounds cells, `calculate_cost` returns n when the
neighbor's label is the digit n (n = 1..4) and 1 for any other non-wall
label, plus a 0.5 surcharge exactly when both coordinates differ. -/
theorem calculate_cost_characterization (m : Maze) (s nb : Cell)
    (hs : inBounds m s) (hn : inBounds m nb) :
    (labelAt m nb = '1' → calculate_cost m s nb =
      1 + (if s.1 ≠ nb.1 ∧ s.2 ≠ nb.2 then (1 : ℚ)/2 else 0)) ∧
    (labelAt m nb = '2' → calculate_cost m s nb =
      2 + (if s.1 ≠ nb.1 ∧ s.2 ≠ nb.2 then (1 : ℚ)/2 else 0)) ∧
    (labelAt m nb = '3' → calculate_cost m s nb =
      3 + (if s.1 ≠ nb.1 ∧ s.2 ≠ nb.2 then (1 : ℚ)/2 else 0)) ∧
    (labelAt m nb = '4' → calculate_cost m s nb =
      4 + (if s.1 ≠ nb.1 ∧ s.2 ≠ nb.2 then (1 : ℚ)/2 else 0)) ∧
    (labelAt m nb ∉ (['1', '2', '3', '4'] : List Char) → labelAt m nb ≠ 'w' →
      calculate_cost m s nb =
        1 + (if s.1 ≠ nb.1 ∧ s.2 ≠ nb.2 then (1 : ℚ)/2 else 0)) := by
  have key : ∀ q : ℚ, costMapGet (labelAt m nb) = q →
      calculate_cost m s nb =
        q + (if s.1 ≠ nb.1 ∧ s.2 ≠ nb.2 then (1 : ℚ)/2 else 0) := by
    intro q hq
    unfold calculate_cost
    rw [hq]
    split_ifs <;> ring
  refine ⟨fun h => key 1 ?_, fun h => key 2 ?_, fun h => key 3 ?_,
    fun h => key 4 ?_, fun h hw => key 1 ?_⟩ <;>
    simp [costMapGet, h] <;> simp at h <;>
    simp [costMapGet, h.1, h.2.1, h.2.2.1, h.2.2.2]

/-- Witness for `calculate_cost_characterization` at a concrete maze. -/
theorem calculate_cost_characterization_witness :
    inBounds [[' ', '2'], ['3', 'c']] (0, 0) ∧
    inBounds [[' ', '2'], ['3', 'c']] (0, 1) ∧
    calculate_cost [[' ', '2'], ['3', 'c']] (0, 0) (0, 1) = 2 := by
  refine ⟨by decide, by decide, ?_⟩
  have h := (calculate_cost_characterization [[' ', '2'], ['3', 'c']]
    (0, 0) (0, 1) (by decide) (by decide)).2.1 (by decide)
  rw [h]
  norm_num

/-! ## C6: degenerate search with start = goal -/

/-- C6: for a non-wall in-bounds cell s, searching from s to s returns
([s], 1) from `dfs` and `bfs` (path length as cost) and ([s], 0) from
`a_star` (accumulated cost). -/
theorem start_eq_goal_degenerate (m : Maze) (s : Cell) (hr : Rectangular m)
    (hb : inBounds m s) (hw : labelAt m s ≠ 'w') :
    dfs m s s = some (Res.found [s] 1) ∧
    bfs m s s = some (Res.found [s] 1) ∧
    a_star m s s = some (Res.found [s] 0) := by
  refine ⟨?_, ?_, ?_⟩
  · show dfsAux m s (5 * numU m + 1 + 1) [(s, [s])] [] = _
    rw [dfsAux_cons]
    simp
  · show bfsAux m s (5 * numU m + 1 + 1) [(s, [s])] [] = _
    rw [bfsAux_cons]
    simp
  · show aStarAux m s (2 * numU m * (4 * numU m + 1) + 1 + 1)
      [⟨0, s, [s]⟩] [(s, 0)] = _
    rw [aStarAux_succ]
    simp [popMin, lookupCsf]

/-- Witness for `start_eq_goal_degenerate` at a concrete maze. -/
theorem start_eq_goal_degenerate_witness :
    (Rectangular [['c', ' '], [' ', 'c']] ∧
      inBounds [['c', ' '], [' ', 'c']] (0, 0) ∧
      labelAt [['c', ' '], [' ', 'c']] (0, 0) ≠ 'w') ∧
    dfs [['c', ' '], [' ', 'c']] (0, 0) (0, 0) = some (Res.found [(0, 0)] 1) ∧
    bfs [['c', ' '], [' ', 'c']] (0, 0) (0, 0) = some (Res.found [(0, 0)] 1) ∧
    a_star [['c', ' '], [' ', 'c']] (0, 0) (0, 0) = some (Res.found [(0, 0)] 0) :=
  ⟨⟨by decide, by decide, by decide⟩,
    start_eq_goal_degenerate [['c', ' '], [' ', 'c']] (0, 0)
      (by decide) (by decide) (by decide)⟩

/-! ## C9: searches invoked with a null start/goal coordinate -/

/-- C9 (refutation of the claim on the code): on an all-wall maze neither
a start nor a goal can be located, yet `dfs` invoked with the two `None`
coordinates does not fail with an invalid-input condition: it proceeds
and returns the path `[None]` with cost 1 (since `None == None`).  When
only the start is `None` and the goal is a real cell, the search again
proceeds (pushing and visiting `None`) until `get_neighbors` raises an
accidental `TypeError` while unpacking `None`, which the driver catches
with a generic handler - not an explicit invalid-input condition. -/
theorem null_start_not_validated :
    get_start_state [['w', 'w'], ['w', 'w']] = none ∧
    get_goal_state [['w', 'w'], ['w', 'w']] = none ∧
    dfsPy [['w', 'w'], ['w', 'w']] none none =
      some (DfsPyOut.found [none] 1) ∧
    get_start_state [['w', 'w'], ['c', 'w']] = none ∧
    get_goal_state [['w', 'w'], ['c', 'w']] = some (1, 0) ∧
    dfsPy [['w', 'w'], ['c', 'w']] none (some (1, 0)) =
      some DfsPyOut.typeError := by
  refine ⟨by decide, by decide, ?_, by decide, by decide, ?_⟩ <;> decide

/-! ## C1: reachable goals are found with valid paths -/

/-- C1: for every rectangular maze and every (start, goal) pair with
goal reachable from start through `get_neighbors` transitions, each of
`dfs`, `bfs` and `a_star` returns a non-`None` path whose first element
is start, whose last element is goal, and whose consecutive cells are
`get_neighbors` transitions. -/
theorem searches_find_valid_path (m : Maze) (start goal : Cell)
    (hrect : Rectangular m) (hreach : Reachable m start goal) :
    (∃ p c, dfs m start goal = some (Res.found p c) ∧
      ValidPath m start goal p) ∧
    (∃ p c, bfs m start goal = some (Res.found p c) ∧
      ValidPath m start goal p) ∧
    (∃ p c, a_star m start goal = some (Res.found p c) ∧
      ValidPath m start goal p) := by
  obtain ⟨P, hP⟩ := hreach
  refine ⟨?_, ?_, ?_⟩
  · rcases dfs_run m start goal with ⟨r, h1, hfound, hnp⟩
    cases r with
    | found p c => exact ⟨p, c, h1, (hfound p c rfl).1⟩
    | nopath => exact absurd ⟨P, hP⟩ (hnp rfl)
  · rcases bfs_run m start goal with ⟨r, h1, hfound, hnp⟩
    cases r with
    | found p c => exact ⟨p, c, h1, (hfound p c rfl).1⟩
    | nopath => exact absurd ⟨P, hP⟩ (hnp rfl)
  · rcases astar_run m start goal with ⟨r, h1, hfound⟩
    cases r with
    | found p c => exact ⟨p, c, h1, hfound p c rfl⟩
    | nopath => exact absurd h1 (astar_opt_run m start goal P hP).1

/-- Witness for `searches_find_valid_path` on a concrete 2x2 maze. -/
theorem searches_find_valid_path_witness :
    (Rectangular [['c', ' '], [' ', 'c']] ∧
      Reachable [['c', ' '], [' ', 'c']] (0, 0) (1, 1)) ∧
    ((∃ p c, dfs [['c', ' '], [' ', 'c']] (0, 0) (1, 1) =
        some (Res.found p c) ∧
        ValidPath [['c', ' '], [' ', 'c']] (0, 0) (1, 1) p) ∧
      (∃ p c, bfs [['c', ' '], [' ', 'c']] (0, 0) (1, 1) =
        some (Res.found p c) ∧
        ValidPath [['c', ' '], [' ', 'c']] (0, 0) (1, 1) p) ∧
      (∃ p c, a_star [['c', ' '], [' ', 'c']] (0, 0) (1, 1) =
        some (Res.found p c) ∧
        ValidPath [['c', ' '], [' ', 'c']] (0, 0) (1, 1) p)) :=
  ⟨⟨by decide, ⟨[(0, 0), (0, 1), (1, 1)], by decide⟩⟩,
    searches_find_valid_path [['c', ' '], [' ', 'c']] (0, 0) (1, 1)
      (by decide) ⟨[(0, 0), (0, 1), (1, 1)], by decide⟩⟩

/-! ## C2: the A* cost is at most the cost of any dfs/bfs path -/

/-- C2: whenever `dfs` or `bfs` returns a path p, `a_star` on the same
maze and endpoints returns a path whose reported cost is at most the
summed `calculate_cost` of the consecutive pairs of p. -/
theorem astar_cost_le_found_paths (m : Maze) (start goal : Cell)
    (p : List Cell) (c1 : ℕ) (hrect : Rectangular m)
    (h : dfs m start goal = some (Res.found p c1) ∨
      bfs m start goal = some (Res.found p c1)) :
    ∃ q d, a_star m start goal = some (Res.found q d) ∧ d ≤ pathCost m p := by
  have hvp : ValidPath m start goal p := by
    rcases h with h | h
    · rcases dfs_run m start goal with ⟨r, h1, hfound, _⟩
      rw [h1] at h
      injection h with h2
      exact (hfound p c1 h2).1
    · rcases bfs_run m start goal with ⟨r, h1, hfound, _⟩
      rw [h1] at h
      injection h with h2
      exact (hfound p c1 h2).1
  rcases astar_run m start goal with ⟨r, h1, _⟩
  cases r with
  | found q d => exact ⟨q, d, h1, (astar_opt_run m start goal p hvp).2 q d h1⟩
  | nopath => exact absurd h1 (astar_opt_run m start goal p hvp).1

/-- Witness for `astar_cost_le_found_paths` on a concrete 2x2 maze. -/
theorem astar_cost_le_found_paths_witness :
    (Rectangular [['c', ' '], [' ', 'c']] ∧
      dfs [['c', ' '], [' ', 'c']] (0, 0) (1, 1) =
        some (Res.found [(0, 0), (0, 1), (1, 1)] 3)) ∧
    (∃ q d, a_star [['c', ' '], [' ', 'c']] (0, 0) (1, 1) =
      some (Res.found q d) ∧
      d ≤ pathCost [['c', ' '], [' ', 'c']] [(0, 0), (0, 1), (1, 1)]) :=
  ⟨⟨by decide, by decide⟩,
    astar_cost_le_found_paths [['c', ' '], [' ', 'c']] (0, 0) (1, 1)
      [(0, 0), (0, 1), (1, 1)] 3 (by decide) (Or.inl (by decide))⟩

/-! ## C3: bfs returns a shortest path by cell count -/

/-- C3: if `bfs` returns a path, its length in cells is at most the
length of every valid path between the same endpoints. -/
theorem bfs_returns_shortest_path (m : Maze) (start goal : Cell)
    (p : List Cell) (c : ℕ) (hrect : Rectangular m)
    (hb : bfs m start goal = some (Res.found p c)) :
    ∀ q, ValidPath m start goal q → p.length ≤ q.length := by
  intro q hq
  obtain ⟨hl, hstart, hgoal, hstep⟩ := validPath_index m start goal q hq
  refine bfs_opt_master m start goal q hl hstart hgoal hstep (dfsFuel m)
    [(start, [start])] [] (fun _ => 0) ?_ ?_ ?_ ?_ ?_ p c hb
  · exact List.pairwise_singleton _ _
  · intro e he f hf
    rcases List.mem_singleton.mp he with rfl
    rcases List.mem_singleton.mp hf with rfl
    simp
  · intro v hv
    exact absurd hv (List.not_mem_nil v)
  · intro i hi hmem
    exact absurd hmem (List.not_mem_nil _)
  · intro _
    exact List.mem_singleton.mpr rfl

/-- Witness for `bfs_returns_shortest_path` on a concrete 2x2 maze. -/
theorem bfs_returns_shortest_path_witness :
    (Rectangular [['c', ' '], [' ', 'c']] ∧
      bfs [['c', ' '], [' ', 'c']] (0, 0) (1, 1) =
        some (Res.found [(0, 0), (1, 0), (1, 1)] 3) ∧
      ValidPath [['c', ' '], [' ', 'c']] (0, 0) (1, 1)
        [(0, 0), (0, 1), (1, 1)]) ∧
    ([((0 : ℤ), (0 : ℤ)), (1, 0), (1, 1)] : List Cell).length ≤
      ([((0 : ℤ), (0 : ℤ)), (0, 1), (1, 1)] : List Cell).length :=
  ⟨⟨by decide, by decide, by decide⟩,
    bfs_returns_shortest_path [['c', ' '], [' ', 'c']] (0, 0) (1, 1)
      [(0, 0), (1, 0), (1, 1)] 3 (by decide) (by decide)
      [(0, 0), (0, 1), (1, 1)] (by decide)⟩

/-! ## C4: unreachable goals yield the (None, 0) sentinel -/

/-- C4: when the goal is not reachable from the start, each of the
three searches returns the `(None, 0)` sentinel (`Res.nopath`), as a
normal return value of the embedded total functions. -/
theorem unreachable_returns_none_zero (m : Maze) (start goal : Cell)
    (hrect : Rectangular m) (hunreach : ¬ Reachable m start goal) :
    dfs m start goal = some Res.nopath ∧
    bfs m start goal = some Res.nopath ∧
    a_star m start goal = some Res.nopath := by
  refine ⟨?_, ?_, ?_⟩
  · rcases dfs_run m start goal with ⟨r, h1, hfound, _⟩
    cases r with
    | found p c => exact absurd ⟨p, (hfound p c rfl).1⟩ hunreach
    | nopath => exact h1
  · rcases bfs_run m start goal with ⟨r, h1, hfound, _⟩
    cases r with
    | found p c => exact absurd ⟨p, (hfound p c rfl).1⟩ hunreach
    | nopath => exact h1
  · rcases astar_run m start goal with ⟨r, h1, hfound⟩
    cases r with
    | found p c => exact absurd ⟨p, hfound p c rfl⟩ hunreach
    | nopath => exact h1

/-- Witness for `unreachable_returns_none_zero`: a maze whose goal cell
is enclosed by walls. -/
theorem unreachable_returns_none_zero_witness :
    (Rectangular [['c', 'w'], ['w', 'c']] ∧
      ¬ Reachable [['c', 'w'], ['w', 'c']] (0, 0) (1, 1)) ∧
    (dfs [['c', 'w'], ['w', 'c']] (0, 0) (1, 1) = some Res.nopath ∧
      bfs [['c', 'w'], ['w', 'c']] (0, 0) (1, 1) = some Res.nopath ∧
      a_star [['c', 'w'], ['w', 'c']] (0, 0) (1, 1) = some Res.nopath) := by
  have hnr : ¬ Reachable [['c', 'w'], ['w', 'c']] (0, 0) (1, 1) := by
    rcases dfs_run [['c', 'w'], ['w', 'c']] (0, 0) (1, 1) with ⟨r, h1, _, hnp⟩
    have hd : dfs [['c', 'w'], ['w', 'c']] (0, 0) (1, 1) =
        some Res.nopath := by decide
    rw [h1] at hd
    injection hd with h2
    exact hnp h2
  exact ⟨⟨by decide, hnr⟩,
    unreachable_returns_none_zero [['c', 'w'], ['w', 'c']] (0, 0) (1, 1)
      (by decide) hnr⟩

/-! ## C5: the A* loop terminates -/

/-- C5: for every rectangular maze and in-bounds start and goal cells,
the fuel bound `aStarFuel` suffices: the priority-queue loop of
`a_star` performs finitely many iterations and returns, even though
extracted entries are never rejected by a closed set (the only guard is
the `cost_so_far` improvement check at push time). -/
theorem a_star_terminates (m : Maze) (start goal : Cell)
    (hrect : Rectangular m) (hs : inBounds m start) (hg : inBounds m goal) :
    ∃ r, a_star m start goal = some r := by
  rcases astar_run m start goal with ⟨r, h1, _⟩
  exact ⟨r, h1⟩

/-- Witness for `a_star_terminates` on a concrete 2x2 maze. -/
theorem a_star_terminates_witness :
    (Rectangular [['c', ' '], [' ', 'c']] ∧
      inBounds [['c', ' '], [' ', 'c']] (0, 0) ∧
      inBounds [['c', ' '], [' ', 'c']] (1, 1)) ∧
    (∃ r, a_star [['c', ' '], [' ', 'c']] (0, 0) (1, 1) = some r) :=
  ⟨⟨by decide, by decide, by decide⟩,
    a_star_terminates [['c', ' '], [' ', 'c']] (0, 0) (1, 1)
      (by decide) (by decide) (by decide)⟩

/-! ## C10: dfs and bfs paths never repeat a cell -/

/-- C10: whenever `dfs` or `bfs` returns a non-`None` path, that path
contains no repeated cell, even though neighbors are pushed onto the
frontier unfiltered by visited status. -/
theorem found_paths_nodup (m : Maze) (start goal : Cell) (p : List Cell)
    (c : ℕ) (hrect : Rectangular m)
    (h : dfs m start goal = some (Res.found p c) ∨
      bfs m start goal = some (Res.found p c)) :
    p.Nodup := by
  rcases h with h | h
  · rcases dfs_run m start goal with ⟨r, h1, hfound, _⟩
    rw [h1] at h
    injection h with h2
    exact (hfound p c h2).2.2
  · rcases bfs_run m start goal with ⟨r, h1, hfound, _⟩
    rw [h1] at h
    injection h with h2
    exact (hfound p c h2).2.2

/-- Witness for `found_paths_nodup` on a concrete 2x2 maze. -/
theorem found_paths_nodup_witness :
    (Rectangular [['c', ' '], [' ', 'c']] ∧
      dfs [['c', ' '], [' ', 'c']] (0, 0) (1, 1) =
        some (Res.found [(0, 0), (0, 1), (1, 1)] 3)) ∧
    ([((0 : ℤ), (0 : ℤ)), (0, 1), (1, 1)] : List Cell).Nodup :=
  ⟨⟨by decide, by decide⟩,
    found_paths_nodup [['c', ' '], [' ', 'c']] (0, 0) (1, 1)
      [(0, 0), (0, 1), (1, 1)] 3 (by decide) (Or.inl (by decide))⟩

end MazeSolver
